import Mathlib

/-!
Verification of the `conf` configuration parser (`parse.go`).

The Go source is shallowly embedded: pure Go functions become Lean
functions, the stateful token-driven parser engine becomes explicit state
passing over a `PState` record, Go's `int64` arithmetic is `Int` with an
explicit reduction modulo `2^64` where overflow can occur, and fallible
code returns `Option`/`Except`.

The repository ships `parse.go` but not its lexer (`lex.go`): the lexer,
the process environment and the filesystem are external collaborators
here, supplied to the parser as explicit parameters (a `World`).

Go strings are modelled as Lean `String`s (sequences of characters); the
Unicode facilities of the Go standard library (`unicode.IsLetter`,
`strings.ToLower`) are modelled on the ASCII range, which covers every
lexeme shape the configuration dialect produces.
-/

set_option autoImplicit false

namespace Conf

/-- Model of Go `unicode.IsLetter` as used on the characters of a lexeme
(ASCII range). -/
def goIsLetter (c : Char) : Bool := c.isAlpha

/-- Model of Go `strings.ToLower` (ASCII range): lowercase every character. -/
def goToLower (s : String) : String := String.mk (s.data.map Char.toLower)

/-- Helper for `parseNumberSuffix`: scan the characters of the literal from
the end (the list argument is the reversed literal, as in the Go loop
`for i := len(val) - 1; i >= 0; i--`).  Accumulates the trailing letters in
`acc` (in source order, mirroring `suffix = string(val[i]) + suffix`); on the
first non-letter returns `some` of the split `(val[:i+1], val[i+1:])`; if
every character is a letter, returns `none` (the loop fell through). -/
def pnsScan : List Char → List Char → Option (List Char × List Char)
  | [], _ => none
  | c :: rest, acc =>
    if goIsLetter c then pnsScan rest (c :: acc)
    else some ((c :: rest).reverse, acc)

/-- From `parse.go`: `parseNumberSuffix` extracts the numeric part and the
suffix from a string like `"100k"`.  If the scan from the end hits a
non-letter, the string is split there and the suffix keeps its case; if the
whole string is letters the function returns the unmodified input together
with a lowercased copy of it. -/
def parseNumberSuffix (val : String) : String × String :=
  match pnsScan val.data.reverse [] with
  | some (numPart, suf) => (String.mk numPart, String.mk suf)
  | none => (val, goToLower val)

/-- Value of a run of decimal digit characters. -/
def digitsToNat (digits : List Char) : Nat :=
  digits.foldl (fun a c => a * 10 + (c.toNat - 48)) 0

/-- Apply an optional leading minus sign to a digit-run value. -/
def signedVal (neg : Bool) (n : Nat) : Int :=
  if neg then -(n : Int) else (n : Int)

/-- Digit-run part of the model of Go `strconv.ParseInt(s, 10, 64)`: at
least one decimal digit, value range-checked against signed 64 bits. -/
def goParseInt64Core (neg : Bool) (digits : List Char) : Option Int :=
  if digits.isEmpty then none
  else if digits.all Char.isDigit then
    if -(2 ^ 63) ≤ signedVal neg (digitsToNat digits) ∧
        signedVal neg (digitsToNat digits) < 2 ^ 63 then
      some (signedVal neg (digitsToNat digits))
    else none
  else none

/-- Model of Go `strconv.ParseInt(s, 10, 64)` (external stdlib): an optional
sign followed by at least one decimal digit; the value must fit in a signed
64-bit integer, otherwise an error is reported (`none`). -/
def goParseInt64 (s : String) : Option Int :=
  match s.data with
  | '-' :: rest => goParseInt64Core true rest
  | '+' :: rest => goParseInt64Core false rest
  | l => goParseInt64Core false l

/-- Reduction of an integer into the signed 64-bit range: Go `int64`
arithmetic wraps around modulo `2^64`. -/
def wrap64 (z : Int) : Int := (z + 2 ^ 63) % 2 ^ 64 - 2 ^ 63

/-- From `parse.go`: `applySuffix` scales an `int64` by the unit named by the
(case-insensitively matched) suffix.  Each Go multiplication is a wrapping
`int64` multiplication; the chained products of the source are modelled by a
single reduction `wrap64` of the exact product, which is equal to the chain
of wrapped multiplications. -/
def applySuffix (num : Int) (suffix : String) : Int :=
  if goToLower suffix = "k" then wrap64 (num * 1000)
  else if goToLower suffix = "m" then wrap64 (num * (1000 * 1000))
  else if goToLower suffix = "g" then wrap64 (num * (1000 * 1000 * 1000))
  else if goToLower suffix = "t" then wrap64 (num * (1000 * 1000 * 1000 * 1000))
  else if goToLower suffix = "kb" ∨ goToLower suffix = "ki" ∨ goToLower suffix = "kib" then
    wrap64 (num * 1024)
  else if goToLower suffix = "mb" ∨ goToLower suffix = "mi" ∨ goToLower suffix = "mib" then
    wrap64 (num * (1024 * 1024))
  else if goToLower suffix = "gb" ∨ goToLower suffix = "gi" ∨ goToLower suffix = "gib" then
    wrap64 (num * (1024 * 1024 * 1024))
  else if goToLower suffix = "tb" ∨ goToLower suffix = "ti" ∨ goToLower suffix = "tib" then
    wrap64 (num * (1024 * 1024 * 1024 * 1024))
  else if goToLower suffix = "p" then wrap64 (num * (1000 * 1000 * 1000 * 1000 * 1000))
  else if goToLower suffix = "pb" ∨ goToLower suffix = "pi" ∨ goToLower suffix = "pib" then
    wrap64 (num * (1024 * 1024 * 1024 * 1024 * 1024))
  else if goToLower suffix = "e" then wrap64 (num * (1000 * 1000 * 1000 * 1000 * 1000 * 1000))
  else if goToLower suffix = "eb" ∨ goToLower suffix = "ei" ∨ goToLower suffix = "eib" then
    wrap64 (num * (1024 * 1024 * 1024 * 1024 * 1024 * 1024))
  else num

/-- From `parse.go`: `parseInteger` splits the literal into numeric part and
suffix, parses the numeric part as a base-10 `int64` (error `none` on
failure, reported as `invalid integer`), and applies the suffix scale. -/
def parseInteger (val : String) : Option Int :=
  match goParseInt64 (parseNumberSuffix val).1 with
  | none => none
  | some num => some (applySuffix num (parseNumberSuffix val).2)

/-- From `parse.go`: `parseBool` lowercases the lexeme and maps
`true`/`yes`/`on` to `true` and `false`/`no`/`off` to `false`; every other
string falls through to `false`. -/
def parseBool (val : String) : Bool :=
  if goToLower val = "true" ∨ goToLower val = "yes" ∨ goToLower val = "on" then true
  else if goToLower val = "false" ∨ goToLower val = "no" ∨ goToLower val = "off" then false
  else false

/-- The unit table exactly as the specification states it: the suffix,
compared case-insensitively, selects a scale factor; an unknown or absent
suffix scales by 1.  (Listed in the same case order as `applySuffix` for
ease of comparison; the cases are mutually exclusive.) -/
def claimSuffixScale (suffix : String) : Int :=
  if goToLower suffix = "k" then 1000
  else if goToLower suffix = "m" then 10 ^ 6
  else if goToLower suffix = "g" then 10 ^ 9
  else if goToLower suffix = "t" then 10 ^ 12
  else if goToLower suffix = "kb" ∨ goToLower suffix = "ki" ∨ goToLower suffix = "kib" then 1024
  else if goToLower suffix = "mb" ∨ goToLower suffix = "mi" ∨ goToLower suffix = "mib" then
    1024 ^ 2
  else if goToLower suffix = "gb" ∨ goToLower suffix = "gi" ∨ goToLower suffix = "gib" then
    1024 ^ 3
  else if goToLower suffix = "tb" ∨ goToLower suffix = "ti" ∨ goToLower suffix = "tib" then
    1024 ^ 4
  else if goToLower suffix = "p" then 10 ^ 15
  else if goToLower suffix = "pb" ∨ goToLower suffix = "pi" ∨ goToLower suffix = "pib" then
    1024 ^ 5
  else if goToLower suffix = "e" then 10 ^ 18
  else if goToLower suffix = "eb" ∨ goToLower suffix = "ei" ∨ goToLower suffix = "eib" then
    1024 ^ 6
  else 1

/-! ## External decoders used by `processItem` -/

/-- Mantissa of a decimal floating-point literal: digits, optionally with a
decimal point; at least one digit on at least one side of the point. -/
def goMantissaOk (l : List Char) : Bool :=
  match l.dropWhile Char.isDigit with
  | [] => !(l.takeWhile Char.isDigit).isEmpty
  | '.' :: frac =>
    frac.all Char.isDigit && (!(l.takeWhile Char.isDigit).isEmpty || !frac.isEmpty)
  | _ => false

/-- Model of Go `strconv.ParseFloat(s, 64)` (external stdlib), restricted to
the decimal literal forms (optional sign, digits with optional decimal
point, optional exponent); hexadecimal floats, `Inf`/`NaN` spellings and
digit underscores are not produced by this configuration dialect.  Only the
success/failure of a decode matters to the parser: the IEEE value itself is
abstracted by the literal it deterministically decodes from. -/
def goFloatSyntaxOk (s : String) : Bool :=
  let l :=
    match s.data with
    | '+' :: r => r
    | '-' :: r => r
    | r => r
  goMantissaOk (l.takeWhile fun c => c ≠ 'e' ∧ c ≠ 'E') &&
    (match l.dropWhile (fun c => c ≠ 'e' ∧ c ≠ 'E') with
     | [] => true
     | _ :: ex =>
       let ex2 :=
         match ex with
         | '+' :: r => r
         | '-' :: r => r
         | r => r
       !ex2.isEmpty && ex2.all Char.isDigit)

/-- Gregorian leap year rule, as used by Go `time`. -/
def isLeapYear (y : Nat) : Bool := y % 4 = 0 && (y % 100 ≠ 0 || y % 400 = 0)

/-- Number of days in a month, as used by Go `time`. -/
def daysInMonth (y m : Nat) : Nat :=
  if m = 2 then (if isLeapYear y then 29 else 28)
  else if m = 4 ∨ m = 6 ∨ m = 9 ∨ m = 11 then 30
  else 31

/-- Two-digit decimal value. -/
def twoDigits (a b : Char) : Nat := (a.toNat - 48) * 10 + (b.toNat - 48)

/-- Model of Go `time.Parse("2006-01-02T15:04:05Z", s)` (external stdlib):
the literal must have exactly the shape `YYYY-MM-DDTHH:MM:SSZ` with all
fields in range.  The decoded UTC instant is abstracted by the literal it
deterministically decodes from. -/
def goDateTimeOk (s : String) : Bool :=
  match s.data with
  | [y1, y2, y3, y4, '-', m1, m2, '-', d1, d2, 'T', h1, h2, ':', n1, n2, ':', s1, s2, 'Z'] =>
    [y1, y2, y3, y4, m1, m2, d1, d2, h1, h2, n1, n2, s1, s2].all Char.isDigit &&
      (let y := twoDigits y1 y2 * 100 + twoDigits y3 y4
       let mo := twoDigits m1 m2
       let dy := twoDigits d1 d2
       1 ≤ mo && mo ≤ 12 && 1 ≤ dy && dy ≤ daysInMonth y mo &&
         twoDigits h1 h2 ≤ 23 && twoDigits n1 n2 ≤ 59 && twoDigits s1 s2 ≤ 59)
  | _ => false

/-- Model of Go `filepath.Dir` (external stdlib), simplified to stripping
the last slash-separated component; only threaded through include paths,
whose syntax no claim depends on. -/
def goDir (fp : String) : String :=
  match fp.data.reverse.dropWhile (fun c => c ≠ '/') with
  | [] => "."
  | [_] => "/"
  | _ :: rest => String.mk rest.reverse

/-- Model of Go `filepath.Join` (external stdlib), simplified to
slash-concatenation. -/
def goJoin (dir file : String) : String :=
  if dir = "" ∨ dir = "." then file else dir ++ "/" ++ file

/-! ## The parser engine

`parse.go` drives a lexer (`lex.go`, which is not part of the repository
snapshot) that turns the input text into a stream of items.  The engine
below is the faithful translation of `parseData`, `processItem`,
`setValue`, `lookupVariable`, `parseIncludeFile` and the context/key/item
stacks; the lexer, the process environment (`os.LookupEnv`) and the
filesystem (`os.ReadFile`) are supplied as an explicit `World`. -/

/-- Item kinds dispatched on by `processItem`.  Modelled from the spec:
`lex.go` is missing, and the spec's token inventory plus the parser's
switch determine this list.  `itemError` is the zero value of the Go
`itemType` enum (the initial `prevItem` of `parseData` is the zero item,
whose type is in particular not `itemKey`). -/
inductive ItemType where
  | itemError
  | itemKey
  | itemMapStart
  | itemMapEnd
  | itemString
  | itemInteger
  | itemFloat
  | itemBool
  | itemDatetime
  | itemArrayStart
  | itemArrayEnd
  | itemVariable
  | itemInclude
  | itemEOF
deriving DecidableEq

/-- A lexer item: kind, lexeme text, and source position. -/
structure Item where
  typ : ItemType
  val : String
  line : Nat
  pos : Nat
deriving DecidableEq

/-- The Go `any` values the parser builds.  `vfloat` and `vdate` carry the
source literal (the IEEE double / UTC instant is abstracted by the literal
it deterministically decodes from); `vmap` models `map[string]any` as an
insertion-ordered association list with unique keys (Go maps are unordered,
so a fixed order is a sound determinization); `vtok` is the pedantic-mode
`*token` wrapper `{item, value, usedVariable, sourceFile}`. -/
inductive GoVal where
  | vstr (s : String)
  | vint (n : Int)
  | vfloat (raw : String)
  | vdate (raw : String)
  | vbool (b : Bool)
  | varr (xs : List GoVal)
  | vmap (entries : List (String × GoVal))
  | vtok (it : Item) (v : GoVal) (used : Bool) (src : String)

/-- The type of a parse result (the root `map[string]any`). -/
abbrev RootMap := List (String × GoVal)

/-- Outcomes other than success: `perr` is an error value returned by the
Go code, `pcrash` is a Go runtime panic (the `BUG:` paths and slice-index
panics), and `pfuel` is a model artifact marking exhaustion of the
recursion fuel that bounds nested include/environment parses (the Go code
diverges or exhausts the stack where the model reports `pfuel`). -/
inductive PErr where
  | perr (msg : String)
  | pcrash (msg : String)
  | pfuel
deriving DecidableEq

/-- The external collaborators of one parse call: the lexer stream for a
given text, the process environment, and the filesystem. -/
structure World where
  lex : String → List Item
  env : String → Option String
  fs : String → Option String

/-- The re-entry point for nested parses (environment fallback and include
files): data, file path, pedantic flag. -/
abbrev RecParse := String → String → Bool → Except PErr RootMap

/-- The mutable state of `parser`: the context stack (head = innermost,
i.e. the end of the Go slice `p.ctxs`), the pending-key stack, the pending
key-item stack (pedantic mode), and `frozen`, which models the aliased
`p.mapping` field after the root mapping has been popped off the context
stack (from then on no write can reach it in Go). -/
structure PState where
  ctxs : List GoVal
  keys : List String
  ikeys : List Item
  frozen : Option GoVal

/-- `parseData`'s initial state: the anonymous bottom map created in the
`parser` literal, with the root `mapping` pushed on top of it. -/
def initState : PState := ⟨[.vmap [], .vmap []], [], [], none⟩

/-- Go map assignment `m[k] = v` on the association-list model: replace in
place if the key is present, append otherwise. -/
def mapAssign : List (String × GoVal) → String → GoVal → List (String × GoVal)
  | [], k, v => [(k, v)]
  | (k2, v2) :: rest, k, v =>
    if k2 = k then (k2, v) :: rest else (k2, v2) :: mapAssign rest k v

/-- Go map lookup `m[k]` on the association-list model. -/
def mapLookup : List (String × GoVal) → String → Option GoVal
  | [], _ => none
  | (k2, v2) :: rest, k => if k2 = k then some v2 else mapLookup rest k

/-- The scope search of `lookupVariable`: walk the context stack from the
innermost (most recently pushed) context outward and return the binding of
the first `Map` context that contains the key. -/
def findInCtxs : List GoVal → String → Option GoVal
  | [], _ => none
  | .vmap m :: rest, k =>
    match mapLookup m k with
    | some v => some v
    | none => findInCtxs rest k
  | _ :: rest, k => findInCtxs rest k

/-- Set the `usedVariable` flag of a pedantic token (identity on any other
value). -/
def setTokUsed : GoVal → GoVal
  | .vtok it v _ src => .vtok it v true src
  | v => v

/-- Set the `usedVariable` flag of the token bound to `k`, if the binding
is a token (state-passing translation of Go's in-place
`tk.usedVariable = true`). -/
def markUsedPairs : List (String × GoVal) → String → List (String × GoVal)
  | [], _ => []
  | (k2, v2) :: rest, k =>
    if k2 = k then (k2, setTokUsed v2) :: rest
    else (k2, v2) :: markUsedPairs rest k

/-- Apply `markUsedPairs` in the innermost context containing the key (the
context in which `findInCtxs` found the binding). -/
def markUsed : List GoVal → String → List GoVal
  | [], _ => []
  | .vmap m :: rest, k =>
    match mapLookup m k with
    | some _ => .vmap (markUsedPairs m k) :: rest
    | none => .vmap m :: markUsed rest k
  | c :: rest, k => c :: markUsed rest k

/-- `popContext`: remove and return the top context.  Go panics on an empty
stack (`BUG:`) and on a one-element stack (popping leaves `p.ctxs` empty
and `p.ctxs[len(p.ctxs)-1]` indexes out of range).  When the stack had
exactly two elements the popped context is the original root `mapping`
object: from then on `p.mapping` aliases a map no write can reach, which
the model captures in `frozen` (set only once). -/
def popContext (p : PState) : Except PErr (GoVal × PState) :=
  match p.ctxs with
  | [] => .error (.pcrash "BUG: empty context stack")
  | [_] => .error (.pcrash "index out of range")
  | c :: c2 :: rest =>
    .ok (c,
      { p with
        ctxs := c2 :: rest
        frozen := if rest.isEmpty && p.frozen.isNone then some c else p.frozen })

/-- `setValue`: store a value in the current top-of-stack context.  An
`Array` context appends; a `Map` context pops one pending key and assigns.
In pedantic mode only `*token` values are stored in maps (the Go type
switch has a single `*token` case, so any other value is silently dropped
after the key is consumed), and the stored token's position is corrected to
the pending key item's position. -/
def setValue (ped : Bool) (p : PState) (val : GoVal) : Except PErr PState :=
  match p.ctxs with
  | [] => .error (.pcrash "no current context")
  | ctx :: rest =>
    match ctx with
    | .varr xs => .ok { p with ctxs := .varr (xs ++ [val]) :: rest }
    | .vmap m =>
      match p.keys with
      | [] => .error (.pcrash "BUG: empty keys stack")
      | key :: ks =>
        if ped then
          match val with
          | .vtok it v used src =>
            match p.ikeys with
            | [] => .error (.pcrash "BUG: empty item keys stack")
            | ik :: iks =>
              .ok { p with
                ctxs := .vmap (mapAssign m key
                  (.vtok { it with pos := ik.pos, line := ik.line } v used src)) :: rest,
                keys := ks, ikeys := iks }
          | _ => .ok { p with keys := ks }
        else
          .ok { p with ctxs := .vmap (mapAssign m key val) :: rest, keys := ks }
    | _ => .ok p

/-- The `setValue` closure at the top of `processItem`: in pedantic mode
wrap the value as a `token` carrying the item and source file. -/
def setValueItem (ped : Bool) (fp : String) (p : PState) (it : Item) (v : GoVal) :
    Except PErr PState :=
  if ped then setValue true p (.vtok it v false fp) else setValue false p v

/-- The storage step of `processItem`'s variable branch: in pedantic mode a
token found in scope is marked used in place and re-wrapped at the
reference's item; any other resolved value is wrapped as a fresh token;
plain mode stores the value as-is. -/
def storeVariable (ped : Bool) (fp : String) (p : PState) (it : Item)
    (value : GoVal) : Except PErr PState :=
  if ped then
    match value with
    | .vtok _ inner _ _ =>
      setValue true { p with ctxs := markUsed p.ctxs it.val } (.vtok it inner false fp)
    | _ => setValue true p (.vtok it value false fp)
  else setValue false p value

/-- The constant `pkey`, used to map an environment value into a temporary
one-entry document for a secondary `Parse` call. -/
def pkey : String := "pk"

/-- The constant `bcryptPrefix = "2a$"` of `parse.go` (named without the
Go suffix for Lean lexical reasons). -/
def bcryptMarker : String := "2a$"

/-- `lookupVariable`: bcrypt-marked references are returned as literal
strings; otherwise the context stack is searched innermost-first; otherwise
the environment variable, if present, is parsed as the one-entry document
`pk=<value>` by a plain nested `Parse` and the decoded `pk` value is
returned.  `Except.error` models the error return, `.ok none` the
not-found return. -/
def lookupVariable (recParse : RecParse) (env : String → Option String)
    (ctxs : List GoVal) (varReference : String) : Except PErr (Option GoVal) :=
  if bcryptMarker.data.isPrefixOf varReference.data then
    .ok (some (.vstr ("$" ++ varReference)))
  else
    match findInCtxs ctxs varReference with
    | some v => .ok (some v)
    | none =>
      match env varReference with
      | some vStr =>
        match recParse (pkey ++ "=" ++ vStr) "" false with
        | .ok vm => .ok (mapLookup vm pkey)
        | .error e => .error e
      | none => .ok none

/-- `ParseFile`: read the file and parse it plainly (a read failure is
wrapped as `error opening config file`; the read error text of the OS is
abstracted by the path). -/
def goParseFilePlain (recParse : RecParse) (fs : String → Option String)
    (path : String) : Except PErr RootMap :=
  match fs path with
  | none => .error (.perr ("error opening config file: open " ++ path))
  | some data => recParse data path false

/-- `ParseFileWithChecks`: read the file and parse it pedantically (a read
failure is returned unwrapped). -/
def goParseFileChecks (recParse : RecParse) (fs : String → Option String)
    (path : String) : Except PErr RootMap :=
  match fs path with
  | none => .error (.perr ("open " ++ path))
  | some data => recParse data path true

/-- `parseIncludeFile`: resolve the include path against the directory of
the including file and re-run the pipeline in the same mode. -/
def parseIncludeFile (recParse : RecParse) (fs : String → Option String)
    (dir fileName : String) (ped : Bool) : Except PErr RootMap :=
  if ped then goParseFileChecks recParse fs (goJoin dir fileName)
  else goParseFilePlain recParse fs (goJoin dir fileName)

/-- One step of the include splice loop: `pushKey`, and in pedantic mode
`pushItemKey` of the token's item when the value is a token. -/
def pushSpliceKey (ped : Bool) (p : PState) (k : String) (v : GoVal) : PState :=
  if ped then
    match v with
    | .vtok itk _ _ _ => { p with keys := k :: p.keys, ikeys := itk :: p.ikeys }
    | _ => { p with keys := k :: p.keys }
  else { p with keys := k :: p.keys }

/-- The include splice loop of `processItem`: for each top-level entry of
the included document, push the key (and, in pedantic mode, the token's
item) and store the value into the current context.  (Go iterates the map
in unspecified order; the model fixes the insertion order.) -/
def splice (ped : Bool) : PState → RootMap → Except PErr PState
  | p, [] => .ok p
  | p, (k, v) :: rest => do
    let p3 ← setValue ped (pushSpliceKey ped p k v) v
    splice ped p3 rest

/-- The parse result `p.mapping`: the root mapping object, which is
`frozen` if it was ever popped off the context stack and otherwise still
sits at Go index 1 of the stack (second from the bottom). -/
def resultMapping (p : PState) : Except PErr RootMap :=
  match p.frozen with
  | some (.vmap m) => .ok m
  | some _ => .error (.pcrash "root mapping lost")
  | none =>
    match p.ctxs.reverse with
    | _ :: .vmap m :: _ => .ok m
    | _ => .error (.pcrash "root mapping lost")

/-- `processItem`: dispatch on one lexer item. -/
def processItem (recParse : RecParse) (env : String → Option String)
    (fs : String → Option String) (fp : String) (ped : Bool)
    (p : PState) (it : Item) : Except PErr PState :=
  match it.typ with
  | .itemError =>
    .error (.perr ("Parse error on line " ++ toString it.line ++ ": '" ++ it.val ++ "'"))
  | .itemKey =>
    if ped then .ok { p with keys := it.val :: p.keys, ikeys := it :: p.ikeys }
    else .ok { p with keys := it.val :: p.keys }
  | .itemMapStart => .ok { p with ctxs := .vmap [] :: p.ctxs }
  | .itemMapEnd => do
    let (c, p1) ← popContext p
    setValueItem ped fp p1 it c
  | .itemString => setValueItem ped fp p it (.vstr it.val)
  | .itemInteger =>
    match parseInteger it.val with
    | none => .error (.perr ("invalid integer '" ++ it.val ++ "'"))
    | some num => setValueItem ped fp p it (.vint num)
  | .itemFloat =>
    if goFloatSyntaxOk it.val then setValueItem ped fp p it (.vfloat it.val)
    else .error (.perr ("expected float, but got '" ++ it.val ++ "'"))
  | .itemBool => setValueItem ped fp p it (.vbool (parseBool it.val))
  | .itemDatetime =>
    if goDateTimeOk it.val then setValueItem ped fp p it (.vdate it.val)
    else .error (.perr ("invalid DateTime: '" ++ it.val ++ "'"))
  | .itemArrayStart => .ok { p with ctxs := .varr [] :: p.ctxs }
  | .itemArrayEnd => do
    let (c, p1) ← popContext p
    setValueItem ped fp p1 it c
  | .itemVariable =>
    match lookupVariable recParse env p.ctxs it.val with
    | .error (.perr e) =>
      .error (.perr ("variable reference for '" ++ it.val ++ "' on line " ++
        toString it.line ++ " could not be parsed: " ++ e))
    | .error e => .error e
    | .ok none =>
      .error (.perr ("variable reference for '" ++ it.val ++ "' on line " ++
        toString it.line ++ " can not be found"))
    | .ok (some value) => storeVariable ped fp p it value
  | .itemInclude =>
    match parseIncludeFile recParse fs (goDir fp) it.val ped with
    | .error (.perr e) =>
      .error (.perr ("error parsing include file '" ++ it.val ++ "', " ++ e))
    | .error e => .error e
    | .ok m => splice ped p m
  | .itemEOF => .ok p

/-- The lexeme of a map-closing token.  Modelled from the spec: the
constant `mapEndString` lives in the missing `lex.go`; `}` is the
map-close lexeme of the dialect. -/
def mapEndString : String := "\x7d"

/-- The Go zero value of `item` (`var prevItem item` in `parseData`). -/
def zeroItem : Item := ⟨.itemError, "", 0, 0⟩

/-- The token loop of `parseData`: before processing an item, fail if it is
`EOF` and the previous item was a key (other than the `}` lexeme) — a key
with no following value; after processing, stop at `EOF` and return the
root mapping.  (The Go lexer always terminates the stream with an `EOF`
item; an exhausted list is unreachable and modelled as a crash.) -/
def runItems (recParse : RecParse) (env : String → Option String)
    (fs : String → Option String) (fp : String) (ped : Bool) :
    PState → Item → List Item → Except PErr RootMap
  | _, _, [] => .error (.pcrash "lexer stream ended without EOF")
  | p, prev, it :: rest =>
    if it.typ = .itemEOF ∧ prev.typ = .itemKey ∧ prev.val ≠ mapEndString then
      .error (.perr ("config is invalid (" ++ fp ++ ":" ++ toString it.line ++ ":" ++
        toString it.pos ++ ")"))
    else do
      let p1 ← processItem recParse env fs fp ped p it
      if it.typ = .itemEOF then resultMapping p1
      else runItems recParse env fs fp ped p1 it rest

/-- `parseData`, with an explicit recursion fuel bounding the nesting depth
of environment-fallback and include parses (which Go does not bound: an
include cycle recurses forever).  Each nested parse re-enters at one less
fuel. -/
def parseDataFuel : Nat → World → String → String → Bool → Except PErr RootMap
  | 0, _, _, _, _ => .error .pfuel
  | fuel + 1, w, data, fp, ped =>
    runItems (fun d f pd => parseDataFuel fuel w d f pd) w.env w.fs fp ped
      initState zeroItem (w.lex data)

/-- `Parse`: plain-mode parse of in-memory data. -/
def goParse (fuel : Nat) (w : World) (data : String) : Except PErr RootMap :=
  parseDataFuel fuel w data "" false

/-- `ParseWithChecks`: pedantic-mode parse of in-memory data. -/
def goParseWithChecks (fuel : Nat) (w : World) (data : String) : Except PErr RootMap :=
  parseDataFuel fuel w data "" true

/-! ## Stripping pedantic wrappers -/

mutual

/-- Replace every pedantic `token` wrapper by its wrapped value,
recursively. -/
def stripVal : GoVal → GoVal
  | .vstr s => .vstr s
  | .vint n => .vint n
  | .vfloat r => .vfloat r
  | .vdate r => .vdate r
  | .vbool b => .vbool b
  | .varr xs => .varr (stripList xs)
  | .vmap m => .vmap (stripPairs m)
  | .vtok _ v _ _ => stripVal v

/-- `stripVal` on every element. -/
def stripList : List GoVal → List GoVal
  | [] => []
  | v :: vs => stripVal v :: stripList vs

/-- `stripVal` on every binding. -/
def stripPairs : List (String × GoVal) → List (String × GoVal)
  | [] => []
  | (k, v) :: rest => (k, stripVal v) :: stripPairs rest

end

mutual

/-- No pedantic `token` wrapper anywhere in the value. -/
def tokenFree : GoVal → Bool
  | .varr xs => tokenFreeList xs
  | .vmap m => tokenFreePairs m
  | .vtok _ _ _ _ => false
  | _ => true

/-- `tokenFree` on every element. -/
def tokenFreeList : List GoVal → Bool
  | [] => true
  | v :: vs => tokenFree v && tokenFreeList vs

/-- `tokenFree` on every binding. -/
def tokenFreePairs : List (String × GoVal) → Bool
  | [] => true
  | (_, v) :: rest => tokenFree v && tokenFreePairs rest

end

/-! ## Invariants for the plain/pedantic equivalence -/

/-- A context-stack entry is a `Map` or an `Array` container (every entry
ever pushed is one of the two). -/
def IsContainer (c : GoVal) : Prop :=
  (∃ m, c = GoVal.vmap m) ∨ (∃ xs, c = GoVal.varr xs)

/-- All context-stack entries and the frozen root are containers. -/
def StackOK (p : PState) : Prop :=
  (∀ c ∈ p.ctxs, IsContainer c) ∧ (∀ c, p.frozen = some c → IsContainer c)

/-- Every binding of the association list is a pedantic `token` wrapper. -/
def PairsTok (m : List (String × GoVal)) : Prop :=
  ∀ kv ∈ m, ∃ it v u s, kv.2 = GoVal.vtok it v u s

/-- If the entry is a `Map` container, all its bindings are `token`
wrappers (what pedantic-mode `setValue` maintains). -/
def CtxTok : GoVal → Prop
  | .vmap m => PairsTok m
  | _ => True

/-- All context-stack entries and the frozen root satisfy `CtxTok`. -/
def StackTok (p : PState) : Prop :=
  (∀ c ∈ p.ctxs, CtxTok c) ∧ (∀ c, p.frozen = some c → CtxTok c)

/-- All context-stack entries and the frozen root are free of `token`
wrappers (what plain-mode parsing maintains). -/
def StackTF (p : PState) : Prop :=
  (∀ c ∈ p.ctxs, tokenFree c = true) ∧ (∀ c, p.frozen = some c → tokenFree c = true)

/-- The simulation relation between a plain-mode state and a pedantic-mode
state at the same point of the token stream: equal context stacks and
frozen roots up to stripping of `token` wrappers, and equal pending-key
stacks. -/
def SimState (pp pq : PState) : Prop :=
  stripList pp.ctxs = stripList pq.ctxs ∧ pp.keys = pq.keys ∧
    pp.frozen.map stripVal = pq.frozen.map stripVal

/-! ## Specification-side predicates and concrete scenarios -/

/-- The value bound to a key in the innermost (most recently pushed)
context `Map` that contains the key, as the specification words the scope
rule: search inward-out; the first `Map` containing the key decides. -/
def InnermostBinding : List GoVal → String → GoVal → Prop
  | [], _, _ => False
  | .vmap m :: rest, k, v =>
    match mapLookup m k with
    | some w => w = v
    | none => InnermostBinding rest k v
  | _ :: rest, k, v => InnermostBinding rest k v

/-- A world whose lexer yields a fixed item stream for every input, with an
empty environment and filesystem (used to instantiate concrete scenarios;
the streams are the lexer output of the scenario text, modelled from the
spec's token rules since `lex.go` is not in the repository). -/
def itemsWorld (items : List Item) : World :=
  ⟨fun _ => items, fun _ => none, fun _ => none⟩

/-- Modelled from the spec: lexer output for
`index = 22; nest { index = 11; foo = $index }; bar = $index`. -/
def shadowWorld : World :=
  itemsWorld [⟨.itemKey, "index", 1, 1⟩, ⟨.itemInteger, "22", 1, 9⟩,
    ⟨.itemKey, "nest", 1, 13⟩, ⟨.itemMapStart, "\x7b", 1, 18⟩,
    ⟨.itemKey, "index", 1, 20⟩, ⟨.itemInteger, "11", 1, 28⟩,
    ⟨.itemKey, "foo", 1, 32⟩, ⟨.itemVariable, "index", 1, 38⟩,
    ⟨.itemMapEnd, "\x7d", 1, 45⟩, ⟨.itemKey, "bar", 1, 48⟩,
    ⟨.itemVariable, "index", 1, 54⟩, ⟨.itemEOF, "", 1, 60⟩]

/-- Modelled from the spec: lexer output for `pass = $2a$10$abc` (the
lexer captures a variable reference without the `$` sigil). -/
def bcryptWorld : World :=
  itemsWorld [⟨.itemKey, "pass", 1, 1⟩, ⟨.itemVariable, "2a$10$abc", 1, 8⟩,
    ⟨.itemEOF, "", 1, 18⟩]

/-- Modelled from the spec: a world where the environment binds `X` to the
text `22`, the document `foo = $X` lexes to a key and a variable reference,
and the miniature document `pk=22` built by the environment fallback lexes
to a key and an integer literal. -/
def envFallbackWorld : World :=
  ⟨fun d =>
    if d = "pk=22" then
      [⟨.itemKey, "pk", 1, 1⟩, ⟨.itemInteger, "22", 1, 4⟩, ⟨.itemEOF, "", 1, 6⟩]
    else
      [⟨.itemKey, "foo", 1, 1⟩, ⟨.itemVariable, "X", 1, 7⟩, ⟨.itemEOF, "", 1, 9⟩],
   fun n => if n = "X" then some "22" else none,
   fun _ => none⟩

/-- Modelled from the spec: lexer output for `foo = $index` with no such
key and no such environment variable. -/
def missingVarWorld : World :=
  itemsWorld [⟨.itemKey, "foo", 1, 1⟩, ⟨.itemVariable, "index", 1, 7⟩,
    ⟨.itemEOF, "", 1, 13⟩]

/-- Modelled from the spec: lexer output for the unterminated document
`a {` — a key followed by a map-open and then end of input. -/
def untermWorld : World :=
  itemsWorld [⟨.itemKey, "a", 1, 1⟩, ⟨.itemMapStart, "\x7b", 1, 3⟩, ⟨.itemEOF, "", 1, 4⟩]

example : parseInteger "8k" = some 8000 := by decide
example : parseInteger "4kb" = some 4096 := by decide
example : parseInteger "3ki" = some 3072 := by decide
example : parseInteger "1m" = some 1000000 := by decide
example : parseInteger "2MB" = some 2097152 := by decide
example : parseInteger "2Mi" = some 2097152 := by decide
example : parseInteger "22" = some 22 := by decide
example : parseInteger "abc" = none := by decide
example : parseNumberSuffix "100k" = ("100", "k") := by decide
example : parseNumberSuffix "KB" = ("KB", "kb") := by decide
example : parseBool "TrUe" = true := by decide
example : parseBool "banana" = false := by decide

/-! ## Properties of the number-suffix splitter -/

theorem pnsScan_eq_none (rev acc : List Char) :
    pnsScan rev acc = none ↔ rev.all goIsLetter = true := by
  induction rev generalizing acc with
  | nil => simp [pnsScan]
  | cons c rest ih =>
    by_cases hc : goIsLetter c
    · simp [pnsScan, hc, ih]
    · simp [pnsScan, hc]

theorem pnsScan_eq_some (rev acc num sfx : List Char)
    (h : pnsScan rev acc = some (num, sfx)) :
    ∃ sr c rest, rev = sr ++ c :: rest ∧ sr.all goIsLetter = true ∧
      goIsLetter c = false ∧ num = (c :: rest).reverse ∧ sfx = sr.reverse ++ acc := by
  induction rev generalizing acc with
  | nil => simp [pnsScan] at h
  | cons c rest ih =>
    by_cases hc : goIsLetter c
    · rw [pnsScan, if_pos hc] at h
      obtain ⟨sr, c2, rest2, hrev, hall, hc2, hnum, hsfx⟩ := ih _ h
      refine ⟨c :: sr, c2, rest2, by simp [hrev], by simp [hall, hc], hc2, hnum, ?_⟩
      simp [hsfx]
    · rw [pnsScan, if_neg hc] at h
      obtain ⟨h1, h2⟩ := Prod.mk.injEq .. ▸ Option.some.inj h
      exact ⟨[], c, rest, rfl, rfl, by simp [hc], h1.symm, by simp [h2]⟩

/-- C10: for an input with at least one non-letter character,
`parseNumberSuffix` splits it into a numeric part and the maximal trailing
run of letters, unmodified (their concatenation is the input and the
numeric part ends in a non-letter); for an all-letter input it returns the
whole input as the numeric part together with a lowercased copy of it as
the suffix. -/
theorem parseNumberSuffix_split (s : String) :
    (s.data.all goIsLetter = false →
      (parseNumberSuffix s).1 ++ (parseNumberSuffix s).2 = s ∧
      (parseNumberSuffix s).2.data.all goIsLetter = true ∧
      ∃ c pre, (parseNumberSuffix s).1.data = pre ++ [c] ∧ goIsLetter c = false) ∧
    (s.data.all goIsLetter = true →
      (parseNumberSuffix s).1 = s ∧ (parseNumberSuffix s).2 = goToLower s) := by
  rcases hscan : pnsScan s.data.reverse [] with _ | ⟨num, sfx⟩
  · have hall : s.data.all goIsLetter = true := by
      have := (pnsScan_eq_none s.data.reverse []).1 hscan
      rwa [List.all_reverse] at this
    constructor
    · intro hfalse; rw [hall] at hfalse; exact absurd hfalse (by simp)
    · intro _
      constructor <;> rw [parseNumberSuffix, hscan]
  · obtain ⟨sr, c, rest, hrev, hall, hc, hnum, hsfx⟩ :=
      pnsScan_eq_some _ _ _ _ hscan
    have hdata : s.data = rest.reverse ++ [c] ++ sr.reverse := by
      have := congrArg List.reverse hrev
      simpa using this
    constructor
    · intro _
      have hres : parseNumberSuffix s = (String.mk num, String.mk sfx) := by
        rw [parseNumberSuffix, hscan]
      refine ⟨?_, ?_, c, rest.reverse, ?_, hc⟩
      · rw [hres]
        have hns : num ++ sfx = s.data := by rw [hnum, hsfx, hdata]; simp
        calc String.mk num ++ String.mk sfx = String.mk (num ++ sfx) := rfl
          _ = String.mk s.data := by rw [hns]
          _ = s := rfl
      · rw [hres]
        simp [hsfx, List.all_reverse, hall]
      · rw [hres, hnum]; simp
    · intro htrue
      exfalso
      have : c ∈ s.data := by rw [hdata]; simp
      have := List.all_eq_true.1 htrue _ this
      rw [hc] at this; exact absurd this (by simp)

/-- Witness for `parseNumberSuffix_split` at the concrete literal `100k`. -/
theorem parseNumberSuffix_split_witness :
    ("100k" : String).data.all goIsLetter = false ∧
      ((parseNumberSuffix "100k").1 ++ (parseNumberSuffix "100k").2 = "100k" ∧
        (parseNumberSuffix "100k").2.data.all goIsLetter = true ∧
        ∃ c pre, (parseNumberSuffix "100k").1.data = pre ++ [c] ∧
          goIsLetter c = false) :=
  ⟨by decide, (parseNumberSuffix_split "100k").1 (by decide)⟩

/-! ## Properties of the integer decoder -/

theorem goParseInt64Core_range (neg : Bool) (digits : List Char) (n : Int)
    (h : goParseInt64Core neg digits = some n) : -(2 ^ 63) ≤ n ∧ n < 2 ^ 63 := by
  unfold goParseInt64Core at h
  split at h
  · exact absurd h (by simp)
  split at h
  · split at h
    · rename_i hrange
      obtain rfl := Option.some.inj h
      exact hrange
    · exact absurd h (by simp)
  · exact absurd h (by simp)

theorem goParseInt64_range (s : String) (n : Int)
    (h : goParseInt64 s = some n) : -(2 ^ 63) ≤ n ∧ n < 2 ^ 63 := by
  unfold goParseInt64 at h
  split at h <;> exact goParseInt64Core_range _ _ _ h

theorem wrap64_eq_self (z : Int) (h1 : -(2 ^ 63) ≤ z) (h2 : z < 2 ^ 63) :
    wrap64 z = z := by
  unfold wrap64; omega

theorem applySuffix_eq_wrap (n : Int) (s : String)
    (h1 : -(2 ^ 63) ≤ n) (h2 : n < 2 ^ 63) :
    applySuffix n s = wrap64 (n * claimSuffixScale s) := by
  unfold applySuffix claimSuffixScale
  generalize goToLower s = l
  by_cases hc : l = "k"
  · subst hc; norm_num
  simp only [if_neg hc]
  by_cases hc2 : l = "m"
  · subst hc2; norm_num
  simp only [if_neg hc2]
  by_cases hc3 : l = "g"
  · subst hc3; norm_num
  simp only [if_neg hc3]
  by_cases hc4 : l = "t"
  · subst hc4; norm_num
  simp only [if_neg hc4]
  by_cases hc5 : l = "kb" ∨ l = "ki" ∨ l = "kib"
  · rcases hc5 with h | h | h <;> subst h <;> norm_num
  simp only [if_neg hc5]
  by_cases hc6 : l = "mb" ∨ l = "mi" ∨ l = "mib"
  · rcases hc6 with h | h | h <;> subst h <;> norm_num
  simp only [if_neg hc6]
  by_cases hc7 : l = "gb" ∨ l = "gi" ∨ l = "gib"
  · rcases hc7 with h | h | h <;> subst h <;> norm_num
  simp only [if_neg hc7]
  by_cases hc8 : l = "tb" ∨ l = "ti" ∨ l = "tib"
  · rcases hc8 with h | h | h <;> subst h <;> norm_num
  simp only [if_neg hc8]
  by_cases hc9 : l = "p"
  · subst hc9; norm_num
  simp only [if_neg hc9]
  by_cases hc10 : l = "pb" ∨ l = "pi" ∨ l = "pib"
  · rcases hc10 with h | h | h <;> subst h <;> norm_num
  simp only [if_neg hc10]
  by_cases hc11 : l = "e"
  · subst hc11; norm_num
  simp only [if_neg hc11]
  by_cases hc12 : l = "eb" ∨ l = "ei" ∨ l = "eib"
  · rcases hc12 with h | h | h <;> subst h <;> norm_num
  simp only [if_neg hc12]
  rw [mul_one, wrap64_eq_self n h1 h2]

/-- C2 (amended): when the numeric prefix parses as a signed 64-bit
integer `n`, `parseInteger` returns `n` times the scale factor of the
(case-insensitively matched) unit table, computed in wrapping two's
complement 64-bit arithmetic (`wrap64`); an unknown or absent suffix leaves
`n` unscaled.  The concrete examples of the claim all hold exactly. -/
theorem parseInteger_suffix_table :
    (∀ (val : String) (n : Int),
      goParseInt64 (parseNumberSuffix val).1 = some n →
      parseInteger val =
        some (wrap64 (n * claimSuffixScale (parseNumberSuffix val).2))) ∧
    parseInteger "8k" = some 8000 ∧ parseInteger "4kb" = some 4096 ∧
    parseInteger "3ki" = some 3072 ∧ parseInteger "1m" = some 1000000 ∧
    parseInteger "2mb" = some 2097152 ∧ parseInteger "2mi" = some 2097152 := by
  refine ⟨fun val n h => ?_, by decide, by decide, by decide, by decide,
    by decide, by decide⟩
  obtain ⟨h1, h2⟩ := goParseInt64_range _ _ h
  unfold parseInteger
  rw [h]
  show some (applySuffix n (parseNumberSuffix val).2) = _
  rw [applySuffix_eq_wrap n _ h1 h2]

/-- Witness for `parseInteger_suffix_table` at the concrete literal `8k`. -/
theorem parseInteger_suffix_table_witness :
    parseInteger "8k" =
      some (wrap64 (8 * claimSuffixScale (parseNumberSuffix "8k").2)) :=
  parseInteger_suffix_table.1 "8k" 8 (by decide)

/-- C2 (counterexample): the literal `9223372036854775807k` has a numeric
prefix that parses as a signed 64-bit integer, and its suffix is `k`, yet
`parseInteger` does not return the exact product `9223372036854775807 *
1000`: the multiplication wraps around in 64-bit arithmetic, producing
`-1000`. -/
theorem parseInteger_overflow_counterexample :
    goParseInt64 (parseNumberSuffix "9223372036854775807k").1 =
        some 9223372036854775807 ∧
      (parseNumberSuffix "9223372036854775807k").2 = "k" ∧
      parseInteger "9223372036854775807k" = some (-1000) ∧
      (-1000 : Int) ≠ 9223372036854775807 * 1000 := by
  refine ⟨by decide, by decide, by decide, by decide⟩

/-! ## Properties of the boolean decoder -/

/-- C9: the boolean decoder is total and case-insensitive: lowercase
`true`/`yes`/`on` yields `true`, lowercase `false`/`no`/`off` yields
`false`, and any string whose lowercase form is not one of
`true`/`yes`/`on` yields `false` with no error. -/
theorem parseBool_total (s : String) :
    ((goToLower s = "true" ∨ goToLower s = "yes" ∨ goToLower s = "on") →
      parseBool s = true) ∧
    ((goToLower s = "false" ∨ goToLower s = "no" ∨ goToLower s = "off") →
      parseBool s = false) ∧
    (¬(goToLower s = "true" ∨ goToLower s = "yes" ∨ goToLower s = "on") →
      parseBool s = false) := by
  refine ⟨fun h => ?_, fun h => ?_, fun h => ?_⟩
  · rw [parseBool, if_pos h]
  · rcases h with h | h | h <;> simp [parseBool, h]
  · rw [parseBool, if_neg h]; split <;> rfl

/-- Witness for `parseBool_total` at concrete inputs: mixed case decodes to
`true`, and an arbitrary unrecognized token decodes to `false`. -/
theorem parseBool_total_witness :
    parseBool "TrUe" = true ∧ parseBool "banana" = false :=
  ⟨(parseBool_total "TrUe").1 (by decide),
    (parseBool_total "banana").2.2 (by decide)⟩

/-! ## End-of-input handling (claim C3) -/

/-- C3 (amended): when the token loop reaches an end-of-input item, the
parse fails with a malformed-config error at the current position exactly
when the most recently processed item was a key whose lexeme is not the
map-close lexeme `}`; otherwise the parse returns the root mapping.  (The
pending-key stack is not consulted.) -/
theorem parseData_eof_check (recParse : RecParse) (env : String → Option String)
    (fs : String → Option String) (fp : String) (ped : Bool) (p : PState)
    (prev it : Item) (rest : List Item) (h : it.typ = .itemEOF) :
    runItems recParse env fs fp ped p prev (it :: rest) =
      if prev.typ = .itemKey ∧ prev.val ≠ mapEndString then
        .error (.perr ("config is invalid (" ++ fp ++ ":" ++ toString it.line ++ ":" ++
          toString it.pos ++ ")"))
      else resultMapping p := by
  obtain ⟨typ, val, line, pos⟩ := it
  simp only at h
  subst h
  by_cases hk : prev.typ = .itemKey ∧ prev.val ≠ mapEndString
  · rw [runItems, if_pos ⟨rfl, hk⟩, if_pos hk]
  · rw [runItems, if_neg (fun hc => hk hc.2), if_neg hk]
    rfl

/-- Witness for `parseData_eof_check`: an immediate end-of-input on the
initial state returns the empty root mapping. -/
theorem parseData_eof_check_witness :
    runItems (fun _ _ _ => .error .pfuel) (fun _ => none) (fun _ => none) "" false
      initState zeroItem [⟨.itemEOF, "", 1, 1⟩] =
      if zeroItem.typ = .itemKey ∧ zeroItem.val ≠ mapEndString then
        .error (.perr ("config is invalid (" ++ "" ++ ":" ++ toString (1 : Nat) ++ ":" ++
          toString (1 : Nat) ++ ")"))
      else resultMapping initState :=
  parseData_eof_check _ _ _ _ _ _ _ _ _ rfl

/-- C3 (counterexample): at end-of-input with a non-empty pending-key
stack, the parse can succeed: after `a {` (key pushed, map opened, then
end-of-input with the map-open as the previous item) `parseData` returns
the empty root mapping instead of failing. -/
theorem parseData_eof_counterexample :
    parseDataFuel 1 untermWorld "a \x7b" "" false = .ok [] ∧
    runItems (fun _ _ _ => .error .pfuel) (fun _ => none) (fun _ => none) "" false
      ⟨[.vmap [], .vmap [], .vmap []], ["a"], [], none⟩ ⟨.itemMapStart, "\x7b", 1, 3⟩
      [⟨.itemEOF, "", 1, 4⟩] = .ok [] ∧
    (["a"] : List String) ≠ [] :=
  ⟨rfl, rfl, by decide⟩

/-! ## Variable resolution (claims C4, C5, C6, C7) -/

theorem findInCtxs_of_innermost (ctxs : List GoVal) (k : String) (v : GoVal)
    (h : InnermostBinding ctxs k v) : findInCtxs ctxs k = some v := by
  induction ctxs with
  | nil => simp [InnermostBinding] at h
  | cons c rest ih =>
    cases c with
    | vmap m =>
      rcases hm : mapLookup m k with _ | w
      · rw [InnermostBinding] at h
        rw [hm] at h
        rw [findInCtxs, hm]
        exact ih h
      · rw [InnermostBinding] at h
        rw [hm] at h
        rw [findInCtxs, hm, h]
    | vstr s => exact ih h
    | vint n => exact ih h
    | vfloat r => exact ih h
    | vdate r => exact ih h
    | vbool b => exact ih h
    | varr xs => exact ih h
    | vtok it w u src => exact ih h

/-- C4: a variable reference (not bcrypt-marked) bound in some context
`Map` resolves to the binding of the innermost such `Map`, for every
environment and every re-entry function (hence no environment lookup can
influence the result); and the concrete shadowing document yields
`nest.foo == 11` and `bar == 22`. -/
theorem lookupVariable_lexical_scope :
    (∀ (recParse : RecParse) (env : String → Option String) (ctxs : List GoVal)
        (name : String) (v : GoVal),
      ¬(bcryptMarker.data.isPrefixOf name.data = true) →
      InnermostBinding ctxs name v →
      lookupVariable recParse env ctxs name = .ok (some v)) ∧
    parseDataFuel 1 shadowWorld
        "index = 22; nest { index = 11; foo = $index }; bar = $index" "" false =
      .ok [("index", .vint 22),
        ("nest", .vmap [("index", .vint 11), ("foo", .vint 11)]),
        ("bar", .vint 22)] := by
  refine ⟨fun recParse env ctxs name v hb hin => ?_, rfl⟩
  unfold lookupVariable
  rw [if_neg hb, findInCtxs_of_innermost ctxs name v hin]

/-- Witness for `lookupVariable_lexical_scope`: a one-context stack
resolves the binding. -/
theorem lookupVariable_lexical_scope_witness :
    lookupVariable (fun _ _ _ => .error .pfuel) (fun _ => some "unused")
      [.vmap [("x", .vint 1)]] "x" = .ok (some (.vint 1)) :=
  lookupVariable_lexical_scope.1 _ _ _ _ _ (by decide) (by rw [InnermostBinding]; rfl)

/-- C5: a reference whose name begins with the bcrypt marker `2a$` is
returned as the literal string `$<name>` for every context stack, every
environment and every re-entry function (no scope search, no environment
lookup); and the concrete document `pass = $2a$10$abc` parses to the
literal string. -/
theorem lookupVariable_bcrypt_literal :
    (∀ (recParse : RecParse) (env : String → Option String) (ctxs : List GoVal)
        (name : String),
      bcryptMarker.data.isPrefixOf name.data = true →
      lookupVariable recParse env ctxs name = .ok (some (.vstr ("$" ++ name)))) ∧
    parseDataFuel 1 bcryptWorld "pass = $2a$10$abc" "" false =
      .ok [("pass", .vstr "$2a$10$abc")] := by
  refine ⟨fun recParse env ctxs name hb => ?_, rfl⟩
  unfold lookupVariable
  rw [if_pos hb]

/-- Witness for `lookupVariable_bcrypt_literal` at a concrete bcrypt-shaped
name. -/
theorem lookupVariable_bcrypt_literal_witness :
    lookupVariable (fun _ _ _ => .error .pfuel) (fun _ => some "unused")
      [.vmap [("2a$10$abc", .vint 1)]] "2a$10$abc" = .ok (some (.vstr "$2a$10$abc")) :=
  lookupVariable_bcrypt_literal.1 _ _ _ _ (by decide)

/-- C6: a reference found in no context `Map` but present in the
environment is resolved by re-running the plain parse pipeline on the
one-entry document `pk=<raw value>` and returning its decoded `pk` value;
concretely, with environment variable `X` set to `22`, `foo = $X` parses to
the integer `22`. -/
theorem lookupVariable_env_fallback :
    (∀ (recParse : RecParse) (env : String → Option String) (ctxs : List GoVal)
        (name v : String) (m : RootMap),
      ¬(bcryptMarker.data.isPrefixOf name.data = true) →
      findInCtxs ctxs name = none →
      env name = some v →
      recParse (pkey ++ "=" ++ v) "" false = .ok m →
      lookupVariable recParse env ctxs name = .ok (mapLookup m pkey)) ∧
    parseDataFuel 2 envFallbackWorld "foo = $X" "" false = .ok [("foo", .vint 22)] := by
  refine ⟨fun recParse env ctxs name v m hb hf he hp => ?_, rfl⟩
  unfold lookupVariable
  rw [if_neg hb]
  simp only [hf, he, hp]

/-- Witness for `lookupVariable_env_fallback`: an environment value decoded
through a one-entry re-parse. -/
theorem lookupVariable_env_fallback_witness :
    lookupVariable (fun _ _ _ => .ok [("pk", .vint 22)]) (fun _ => some "22") [] "X" =
      .ok (some (.vint 22)) :=
  lookupVariable_env_fallback.1 _ _ _ _ "22" [("pk", .vint 22)]
    (by decide) rfl rfl rfl

/-- C7: a variable reference (not bcrypt-marked) bound in no context `Map`
and absent from the environment makes `processItem` fail with an error
naming the referenced variable and its line, and the enclosing token loop
propagates that failure; concretely `foo = $index` fails with the
`can not be found` error naming `index` and line 1. -/
theorem variable_not_found_error :
    (∀ (recParse : RecParse) (env : String → Option String)
        (fs : String → Option String) (fp : String) (ped : Bool) (p : PState)
        (name : String) (line pos : Nat),
      ¬(bcryptMarker.data.isPrefixOf name.data = true) →
      findInCtxs p.ctxs name = none →
      env name = none →
      processItem recParse env fs fp ped p ⟨.itemVariable, name, line, pos⟩ =
        .error (.perr ("variable reference for '" ++ name ++ "' on line " ++
          toString line ++ " can not be found")) ∧
      ∀ (prev : Item) (rest : List Item),
        runItems recParse env fs fp ped p prev (⟨.itemVariable, name, line, pos⟩ :: rest) =
          .error (.perr ("variable reference for '" ++ name ++ "' on line " ++
            toString line ++ " can not be found"))) ∧
    parseDataFuel 1 missingVarWorld "foo = $index" "" false =
      .error (.perr "variable reference for 'index' on line 1 can not be found") := by
  refine ⟨fun recParse env fs fp ped p name line pos hb hf he => ?_, rfl⟩
  have hl : lookupVariable recParse env p.ctxs name = .ok none := by
    unfold lookupVariable
    rw [if_neg hb]
    simp only [hf, he]
  have hpi : processItem recParse env fs fp ped p ⟨.itemVariable, name, line, pos⟩ =
      .error (.perr ("variable reference for '" ++ name ++ "' on line " ++
        toString line ++ " can not be found")) := by
    unfold processItem
    simp only [hl]
  refine ⟨hpi, fun prev rest => ?_⟩
  rw [runItems, if_neg (fun hc => by exact absurd hc.1 (by simp))]
  rw [hpi]
  rfl

/-- Witness for `variable_not_found_error` on the empty initial state. -/
theorem variable_not_found_error_witness :
    processItem (fun _ _ _ => .error .pfuel) (fun _ => none) (fun _ => none) "" false
      initState ⟨.itemVariable, "index", 1, 7⟩ =
      .error (.perr ("variable reference for '" ++ "index" ++ "' on line " ++
        toString (1 : Nat) ++ " can not be found")) :=
  ((variable_not_found_error.1 _ _ _ _ _ initState "index" 1 7
    (by decide) rfl rfl)).1

/-! ## Duplicate keys overwrite (claim C8) -/

theorem mapAssign_lookup_self (m : List (String × GoVal)) (k : String) (v : GoVal) :
    mapLookup (mapAssign m k v) k = some v := by
  induction m with
  | nil => simp [mapAssign, mapLookup]
  | cons kv rest ih =>
    obtain ⟨k2, v2⟩ := kv
    by_cases h : k2 = k <;> simp [mapAssign, mapLookup, h, ih]

theorem mapAssign_lookup_other (m : List (String × GoVal)) (k : String) (v : GoVal)
    (k2 : String) (h : k2 ≠ k) :
    mapLookup (mapAssign m k v) k2 = mapLookup m k2 := by
  induction m with
  | nil =>
    simp only [mapAssign, mapLookup]
    rw [if_neg fun hh => h hh.symm]
  | cons kv rest ih =>
    obtain ⟨k3, v3⟩ := kv
    by_cases h3 : k3 = k
    · have hne : ¬k3 = k2 := fun hh => h (hh.symm.trans h3)
      rw [mapAssign, if_pos h3]
      simp only [mapLookup]
      rw [if_neg hne, if_neg hne]
    · rw [mapAssign, if_neg h3]
      simp only [mapLookup]
      by_cases h32 : k3 = k2
      · rw [if_pos h32, if_pos h32]
      · rw [if_neg h32, if_neg h32]
        exact ih

/-- C8: storing a value under a key the current map already binds succeeds
in both plain and pedantic mode, overwrites that binding (last write wins),
and leaves every other binding unchanged. -/
theorem setValue_overwrite :
    ∀ (m : List (String × GoVal)) (k : String) (w v : GoVal) (rest : List GoVal)
      (ks : List String) (iks : List Item) (fz : Option GoVal) (it ik : Item)
      (u : Bool) (src : String),
      mapLookup m k = some w →
      (setValue false ⟨.vmap m :: rest, k :: ks, iks, fz⟩ v =
        .ok ⟨.vmap (mapAssign m k v) :: rest, ks, iks, fz⟩) ∧
      (setValue true ⟨.vmap m :: rest, k :: ks, ik :: iks, fz⟩ (.vtok it v u src) =
        .ok ⟨.vmap (mapAssign m k
          (.vtok { it with pos := ik.pos, line := ik.line } v u src)) :: rest,
          ks, iks, fz⟩) ∧
      mapLookup (mapAssign m k v) k = some v ∧
      (∀ k2, k2 ≠ k → mapLookup (mapAssign m k v) k2 = mapLookup m k2) := by
  intro m k w v rest ks iks fz it ik u src _
  exact ⟨rfl, rfl, mapAssign_lookup_self m k v,
    fun k2 h2 => mapAssign_lookup_other m k v k2 h2⟩

/-- Witness for `setValue_overwrite`: overwriting the key `a` in a
two-entry map keeps the other binding. -/
theorem setValue_overwrite_witness :
    setValue false ⟨[.vmap [("a", .vstr "x"), ("b", .vint 7)], .vmap []], ["a"], [], none⟩
        (.vint 9) =
      .ok ⟨[.vmap (mapAssign [("a", .vstr "x"), ("b", .vint 7)] "a" (.vint 9)), .vmap []],
        [], [], none⟩ :=
  (setValue_overwrite [("a", .vstr "x"), ("b", .vint 7)] "a" (.vstr "x") (.vint 9)
    [.vmap []] [] [] none zeroItem zeroItem false "" rfl).1

/-! ## Plain/pedantic equivalence (claim C1): stripping lemmas -/

theorem stripList_eq_map (xs : List GoVal) : stripList xs = xs.map stripVal := by
  induction xs with
  | nil => rw [stripList]; rfl
  | cons v vs ih => rw [stripList, ih]; rfl

theorem stripPairs_eq_map (m : List (String × GoVal)) :
    stripPairs m = m.map (fun kv => (kv.1, stripVal kv.2)) := by
  induction m with
  | nil => rw [stripPairs]; rfl
  | cons kv rest ih => obtain ⟨k, v⟩ := kv; rw [stripPairs, ih]; rfl

theorem stripList_append (xs ys : List GoVal) :
    stripList (xs ++ ys) = stripList xs ++ stripList ys := by
  simp [stripList_eq_map]

theorem stripList_length (xs : List GoVal) : (stripList xs).length = xs.length := by
  simp [stripList_eq_map]

theorem stripPairs_mapAssign (m : List (String × GoVal)) (k : String) (v : GoVal) :
    stripPairs (mapAssign m k v) = mapAssign (stripPairs m) k (stripVal v) := by
  induction m with
  | nil => simp [mapAssign, stripPairs]
  | cons kv rest ih =>
    obtain ⟨k2, v2⟩ := kv
    by_cases h : k2 = k
    · rw [mapAssign, if_pos h, stripPairs, stripPairs, mapAssign, if_pos h]
    · rw [mapAssign, if_neg h, stripPairs, stripPairs, mapAssign, if_neg h, ih]

theorem mapLookup_stripPairs (m : List (String × GoVal)) (k : String) :
    mapLookup (stripPairs m) k = (mapLookup m k).map stripVal := by
  induction m with
  | nil => rw [stripPairs]; rfl
  | cons kv rest ih =>
    obtain ⟨k2, v2⟩ := kv
    by_cases h : k2 = k
    · rw [stripPairs, mapLookup, if_pos h, mapLookup, if_pos h]; rfl
    · rw [stripPairs, mapLookup, if_neg h, mapLookup, if_neg h, ih]

theorem stripVal_setTokUsed (v : GoVal) : stripVal (setTokUsed v) = stripVal v := by
  cases v <;> rfl

theorem stripPairs_markUsedPairs (m : List (String × GoVal)) (k : String) :
    stripPairs (markUsedPairs m k) = stripPairs m := by
  induction m with
  | nil => rw [markUsedPairs]
  | cons kv rest ih =>
    obtain ⟨k2, v2⟩ := kv
    by_cases h : k2 = k
    · rw [markUsedPairs, if_pos h]
      show (k2, stripVal (setTokUsed v2)) :: stripPairs rest = _
      rw [stripVal_setTokUsed]
      rfl
    · rw [markUsedPairs, if_neg h]
      show (k2, stripVal v2) :: stripPairs (markUsedPairs rest k) = _
      rw [ih]
      rfl

theorem stripList_markUsed (ctxs : List GoVal) (k : String) :
    stripList (markUsed ctxs k) = stripList ctxs := by
  induction ctxs with
  | nil => rw [markUsed]
  | cons c rest ih =>
    cases c
    case vmap m =>
      rw [markUsed]
      cases mapLookup m k with
      | some v => simp only [stripList, stripVal, stripPairs_markUsedPairs]
      | none => simp only [stripList]; rw [ih]
    all_goals simp only [markUsed, stripList]; rw [ih]

/-- Elements of `markUsed ctxs k` are elements of `ctxs`, except possibly
one map whose pairs went through `markUsedPairs`. -/
theorem markUsed_mem (ctxs : List GoVal) (k : String) :
    ∀ c ∈ markUsed ctxs k,
      c ∈ ctxs ∨ ∃ m, GoVal.vmap m ∈ ctxs ∧ c = .vmap (markUsedPairs m k) := by
  induction ctxs with
  | nil => rw [markUsed]; intro c hc; exact absurd hc (List.not_mem_nil c)
  | cons c0 rest ih =>
    have step : ∀ c ∈ c0 :: markUsed rest k,
        c ∈ c0 :: rest ∨ ∃ m, GoVal.vmap m ∈ c0 :: rest ∧ c = .vmap (markUsedPairs m k) := by
      intro c hc
      rcases List.mem_cons.1 hc with hc | hc
      · exact Or.inl (by rw [hc]; exact List.mem_cons_self _ _)
      · rcases ih c hc with hm | ⟨m, hm, he⟩
        · exact Or.inl (List.mem_cons_of_mem _ hm)
        · exact Or.inr ⟨m, List.mem_cons_of_mem _ hm, he⟩
    cases c0
    case vmap m =>
      rw [markUsed]
      cases mapLookup m k with
      | some v =>
        intro c hc
        rcases List.mem_cons.1 hc with hc | hc
        · exact Or.inr ⟨m, List.mem_cons_self _ _, hc⟩
        · exact Or.inl (List.mem_cons_of_mem _ hc)
      | none => exact step
    all_goals exact step

theorem markUsedPairs_pairsTok (m : List (String × GoVal)) (k : String)
    (h : PairsTok m) : PairsTok (markUsedPairs m k) := by
  induction m with
  | nil => rw [markUsedPairs]; exact h
  | cons kv rest ih =>
    obtain ⟨k2, v2⟩ := kv
    have hrest : PairsTok rest := fun kv hm => h kv (List.mem_cons_of_mem _ hm)
    have hhead : ∃ it v u s, v2 = GoVal.vtok it v u s :=
      h (k2, v2) (List.mem_cons_self _ _)
    by_cases hk : k2 = k
    · rw [markUsedPairs, if_pos hk]
      intro kv hm
      rcases List.mem_cons.1 hm with hm | hm
      · obtain ⟨it, v, u, s, hv⟩ := hhead
        rw [hm, hv]
        exact ⟨it, v, true, s, rfl⟩
      · exact hrest kv hm
    · rw [markUsedPairs, if_neg hk]
      intro kv hm
      rcases List.mem_cons.1 hm with hm | hm
      · exact h kv (by rw [hm]; exact List.mem_cons_self _ _)
      · exact ih hrest kv hm

theorem markUsed_ctxTok (ctxs : List GoVal) (k : String)
    (h : ∀ c ∈ ctxs, CtxTok c) : ∀ c ∈ markUsed ctxs k, CtxTok c := by
  intro c hc
  rcases markUsed_mem ctxs k c hc with hm | ⟨m, hm, he⟩
  · exact h c hm
  · rw [he]
    exact markUsedPairs_pairsTok m k (h _ hm)

theorem markUsed_isContainer (ctxs : List GoVal) (k : String)
    (h : ∀ c ∈ ctxs, IsContainer c) : ∀ c ∈ markUsed ctxs k, IsContainer c := by
  intro c hc
  rcases markUsed_mem ctxs k c hc with hm | ⟨m, _, he⟩
  · exact h c hm
  · exact Or.inl ⟨_, he⟩

/-! ## Token-freeness of plain values -/

mutual

theorem stripVal_of_tokenFree : ∀ (v : GoVal), tokenFree v = true → stripVal v = v
  | .vstr _, _ => rfl
  | .vint _, _ => rfl
  | .vfloat _, _ => rfl
  | .vdate _, _ => rfl
  | .vbool _, _ => rfl
  | .varr xs, h => congrArg GoVal.varr (stripList_of_tokenFree xs h)
  | .vmap m, h => congrArg GoVal.vmap (stripPairs_of_tokenFree m h)
  | .vtok _ _ _ _, h => Bool.noConfusion h

theorem stripList_of_tokenFree : ∀ (xs : List GoVal), tokenFreeList xs = true → stripList xs = xs
  | [], _ => rfl
  | v :: vs, h => by
    have h2 := Bool.and_eq_true_iff.1 h
    show stripVal v :: stripList vs = v :: vs
    rw [stripVal_of_tokenFree v h2.1, stripList_of_tokenFree vs h2.2]

theorem stripPairs_of_tokenFree :
    ∀ (m : List (String × GoVal)), tokenFreePairs m = true → stripPairs m = m
  | [], _ => rfl
  | (k, v) :: rest, h => by
    have h2 := Bool.and_eq_true_iff.1 h
    show (k, stripVal v) :: stripPairs rest = (k, v) :: rest
    rw [stripVal_of_tokenFree v h2.1, stripPairs_of_tokenFree rest h2.2]

end

theorem tokenFree_mapLookup (m : List (String × GoVal)) (k : String) (v : GoVal)
    (h : tokenFreePairs m = true) (hl : mapLookup m k = some v) : tokenFree v = true := by
  induction m with
  | nil => exact absurd hl (by rw [mapLookup]; simp)
  | cons kv rest ih =>
    obtain ⟨k2, v2⟩ := kv
    have h2 := Bool.and_eq_true_iff.1 h
    rw [mapLookup] at hl
    by_cases hk : k2 = k
    · rw [if_pos hk] at hl
      obtain rfl := Option.some.inj hl
      exact h2.1
    · rw [if_neg hk] at hl
      exact ih h2.2 hl

theorem pairsTok_mapLookup (m : List (String × GoVal)) (k : String) (v : GoVal)
    (h : PairsTok m) (hl : mapLookup m k = some v) :
    ∃ it w u s, v = GoVal.vtok it w u s := by
  induction m with
  | nil => exact absurd hl (by rw [mapLookup]; simp)
  | cons kv rest ih =>
    obtain ⟨k2, v2⟩ := kv
    rw [mapLookup] at hl
    by_cases hk : k2 = k
    · rw [if_pos hk] at hl
      rw [← Option.some.inj hl]
      exact h (k2, v2) (List.mem_cons_self _ _)
    · rw [if_neg hk] at hl
      exact ih (fun kv hm => h kv (List.mem_cons_of_mem _ hm)) hl

/-! ## Container alignment under stripping -/

theorem container_strip_eq (cp cq : GoVal) (hp : IsContainer cp) (hq : IsContainer cq)
    (h : stripVal cp = stripVal cq) :
    (∃ mp mq, cp = .vmap mp ∧ cq = .vmap mq ∧ stripPairs mp = stripPairs mq) ∨
    (∃ xp xq, cp = .varr xp ∧ cq = .varr xq ∧ stripList xp = stripList xq) := by
  rcases hp with ⟨mp, rfl⟩ | ⟨xp, rfl⟩ <;> rcases hq with ⟨mq, rfl⟩ | ⟨xq, rfl⟩
  · exact Or.inl ⟨mp, mq, rfl, rfl, by
      have : GoVal.vmap (stripPairs mp) = GoVal.vmap (stripPairs mq) := h
      injection this⟩
  · exact absurd (show GoVal.vmap (stripPairs mp) = GoVal.varr (stripList xq) from h)
      (by intro hh; cases hh)
  · exact absurd (show GoVal.varr (stripList xp) = GoVal.vmap (stripPairs mq) from h)
      (by intro hh; cases hh)
  · exact Or.inr ⟨xp, xq, rfl, rfl, by
      have : GoVal.varr (stripList xp) = GoVal.varr (stripList xq) := h
      injection this⟩

theorem findInCtxs_strip (cp : List GoVal) (k : String) :
    ∀ (cq : List GoVal), stripList cp = stripList cq →
    (∀ c ∈ cp, IsContainer c) → (∀ c ∈ cq, IsContainer c) →
    (findInCtxs cp k).map stripVal = (findInCtxs cq k).map stripVal := by
  induction cp with
  | nil =>
    intro cq hs _ _
    cases cq with
    | nil => rfl
    | cons c rest => exact absurd hs (by rw [stripList, stripList]; simp)
  | cons c rest ih =>
    intro cq hs hp hq
    cases cq with
    | nil => exact absurd hs (by rw [stripList, stripList]; simp)
    | cons c2 rest2 =>
      rw [stripList, stripList] at hs
      have hs1 : stripVal c = stripVal c2 := (List.cons.injEq .. ▸ hs).1
      have hs2 : stripList rest = stripList rest2 := (List.cons.injEq .. ▸ hs).2
      have hrest : ∀ x ∈ rest, IsContainer x := fun x hm => hp x (List.mem_cons_of_mem _ hm)
      have hrest2 : ∀ x ∈ rest2, IsContainer x := fun x hm => hq x (List.mem_cons_of_mem _ hm)
      rcases container_strip_eq c c2 (hp c (List.mem_cons_self _ _))
          (hq c2 (List.mem_cons_self _ _)) hs1 with
        ⟨mp, mq, rfl, rfl, hpairs⟩ | ⟨xp, xq, rfl, rfl, _⟩
      · rw [findInCtxs, findInCtxs]
        have halign : (mapLookup mp k).map stripVal = (mapLookup mq k).map stripVal := by
          rw [← mapLookup_stripPairs, ← mapLookup_stripPairs, hpairs]
        cases hmp : mapLookup mp k with
        | some v =>
          rw [hmp] at halign
          cases hmq : mapLookup mq k with
          | some v2 => rw [hmq] at halign; exact halign
          | none => rw [hmq] at halign; exact absurd halign (by simp)
        | none =>
          rw [hmp] at halign
          cases hmq : mapLookup mq k with
          | some v2 => rw [hmq] at halign; exact absurd halign.symm (by simp)
          | none => exact ih rest2 hs2 hrest hrest2
      · exact ih rest2 hs2 hrest hrest2

/-! ## Simulation lemmas for the state operations -/

theorem isNone_of_strip_map (a b : Option GoVal)
    (h : a.map stripVal = b.map stripVal) : a.isNone = b.isNone := by
  cases a <;> cases b <;> simp_all

theorem popContext_sim (pp pq : PState) (cp cq : GoVal) (pp2 pq2 : PState)
    (hsim : SimState pp pq)
    (hp : popContext pp = .ok (cp, pp2)) (hq : popContext pq = .ok (cq, pq2)) :
    stripVal cp = stripVal cq ∧ SimState pp2 pq2 ∧
    cp ∈ pp.ctxs ∧ cq ∈ pq.ctxs ∧
    (∀ c ∈ pp2.ctxs, c ∈ pp.ctxs) ∧ (∀ c ∈ pq2.ctxs, c ∈ pq.ctxs) ∧
    (∀ c, pp2.frozen = some c → pp.frozen = some c ∨ c = cp) ∧
    (∀ c, pq2.frozen = some c → pq.frozen = some c ∨ c = cq) ∧
    pp2.keys = pp.keys ∧ pq2.keys = pq.keys := by
  obtain ⟨pctxs, pkeys, pikeys, pfz⟩ := pp
  obtain ⟨qctxs, qkeys, qikeys, qfz⟩ := pq
  obtain ⟨hs, hk, hf⟩ := hsim
  dsimp only at hs hk hf ⊢
  match pctxs, hp with
  | [], hp => exact Except.noConfusion hp
  | [_], hp => exact Except.noConfusion hp
  | c :: c2 :: rst, hp =>
    match qctxs, hq with
    | [], hq => exact Except.noConfusion hq
    | [_], hq => exact Except.noConfusion hq
    | d :: d2 :: rst2, hq =>
      rw [popContext] at hp hq
      dsimp only at hp hq
      have hp1 := Except.ok.inj hp
      have hq1 := Except.ok.inj hq
      injection hp1 with hpc hpst
      injection hq1 with hqc hqst
      subst hpc hpst hqc hqst
      rw [stripList, stripList, stripList, stripList] at hs
      have h1 : stripVal c = stripVal d := (List.cons.injEq .. ▸ hs).1
      have h2 : stripVal c2 = stripVal d2 := (List.cons.injEq .. ▸ (List.cons.injEq .. ▸ hs).2).1
      have h3 : stripList rst = stripList rst2 :=
        (List.cons.injEq .. ▸ (List.cons.injEq .. ▸ hs).2).2
      have hlen : rst.isEmpty = rst2.isEmpty := by
        have := stripList_length rst
        have := stripList_length rst2
        cases rst <;> cases rst2 <;> simp_all [stripList]
      have hnone : pfz.isNone = qfz.isNone := isNone_of_strip_map _ _ hf
      refine ⟨h1, ⟨?_, hk, ?_⟩, List.mem_cons_self _ _, List.mem_cons_self _ _,
        fun x hm => List.mem_cons_of_mem _ hm, fun x hm => List.mem_cons_of_mem _ hm,
        ?_, ?_, rfl, rfl⟩
      · rw [stripList, stripList]
        rw [h2, h3]
      · by_cases hcnd : rst.isEmpty && pfz.isNone
        · rw [if_pos hcnd, if_pos (by rw [← hlen, ← hnone]; exact hcnd)]
          dsimp only [Option.map]
          rw [h1]
        · rw [if_neg hcnd, if_neg (by rw [← hlen, ← hnone]; exact hcnd)]
          exact hf
      · intro c hfc
        dsimp only at hfc
        by_cases hcnd : rst.isEmpty && pfz.isNone
        · rw [if_pos hcnd] at hfc
          exact Or.inr (Option.some.inj hfc).symm
        · rw [if_neg hcnd] at hfc
          exact Or.inl hfc
      · intro c hfc
        dsimp only at hfc
        by_cases hcnd : rst2.isEmpty && qfz.isNone
        · rw [if_pos hcnd] at hfc
          exact Or.inr (Option.some.inj hfc).symm
        · rw [if_neg hcnd] at hfc
          exact Or.inl hfc

theorem setValue_sim (pp pq : PState) (vp vq : GoVal) (pp2 pq2 : PState)
    (hsim : SimState pp pq)
    (hokp : ∀ c ∈ pp.ctxs, IsContainer c) (hokq : ∀ c ∈ pq.ctxs, IsContainer c)
    (htok : ∃ it w u s, vq = GoVal.vtok it w u s)
    (hv : stripVal vp = stripVal vq)
    (hp : setValue false pp vp = .ok pp2) (hq : setValue true pq vq = .ok pq2) :
    SimState pp2 pq2 ∧
    (∀ c ∈ pp2.ctxs, IsContainer c) ∧ (∀ c ∈ pq2.ctxs, IsContainer c) ∧
    pp2.frozen = pp.frozen ∧ pq2.frozen = pq.frozen := by
  obtain ⟨pctxs, pkeys, pikeys, pfz⟩ := pp
  obtain ⟨qctxs, qkeys, qikeys, qfz⟩ := pq
  obtain ⟨hs, hk, hf⟩ := hsim
  dsimp only at hs hk hf hokp hokq ⊢
  match pctxs, hp, hokp with
  | [], hp, _ => exact Except.noConfusion hp
  | ctxp :: rstp, hp, hokp =>
    match qctxs, hq, hokq with
    | [], hq, _ => exact Except.noConfusion hq
    | ctxq :: rstq, hq, hokq =>
      rw [stripList, stripList] at hs
      have h1 : stripVal ctxp = stripVal ctxq := (List.cons.injEq .. ▸ hs).1
      have h2 : stripList rstp = stripList rstq := (List.cons.injEq .. ▸ hs).2
      have hrstp : ∀ c ∈ rstp, IsContainer c :=
        fun c hm => hokp c (List.mem_cons_of_mem _ hm)
      have hrstq : ∀ c ∈ rstq, IsContainer c :=
        fun c hm => hokq c (List.mem_cons_of_mem _ hm)
      rcases container_strip_eq ctxp ctxq (hokp ctxp (List.mem_cons_self _ _))
          (hokq ctxq (List.mem_cons_self _ _)) h1 with
        ⟨mp, mq, rfl, rfl, hpairs⟩ | ⟨xp, xq, rfl, rfl, hlists⟩
      · -- both map contexts: pop a key and assign
        rw [setValue] at hp hq
        dsimp only at hp hq
        match pkeys, hk, hp, hq with
        | [], hk, hp, _ => exact Except.noConfusion hp
        | k :: ks, hk, hp, hq =>
          rw [← hk] at hq
          obtain ⟨it, w, u, s, rfl⟩ := htok
          dsimp only at hq
          match qikeys, hq with
          | [], hq => exact Except.noConfusion hq
          | ik :: iks, hq =>
            rw [← Except.ok.inj hp, ← Except.ok.inj hq]
            refine ⟨⟨?_, rfl, hf⟩, ?_, ?_, rfl, rfl⟩
            · dsimp only
              rw [stripList, stripList, h2]
              have : stripVal (GoVal.vmap (mapAssign mp k vp)) =
                  stripVal (GoVal.vmap (mapAssign mq k
                    (GoVal.vtok { it with pos := ik.pos, line := ik.line } w u s))) := by
                show GoVal.vmap (stripPairs (mapAssign mp k vp)) =
                  GoVal.vmap (stripPairs (mapAssign mq k _))
                rw [stripPairs_mapAssign, stripPairs_mapAssign, hpairs]
                have : stripVal vp = stripVal w := hv
                rw [this]
                rfl
              rw [this]
            · intro c hm
              rcases List.mem_cons.1 hm with hm | hm
              · exact Or.inl ⟨_, hm⟩
              · exact hrstp c hm
            · intro c hm
              rcases List.mem_cons.1 hm with hm | hm
              · exact Or.inl ⟨_, hm⟩
              · exact hrstq c hm
      · -- both array contexts: append
        rw [setValue] at hp hq
        dsimp only at hp hq
        rw [← Except.ok.inj hp, ← Except.ok.inj hq]
        refine ⟨⟨?_, hk, hf⟩, ?_, ?_, rfl, rfl⟩
        · dsimp only
          rw [stripList, stripList, h2]
          have : stripVal (GoVal.varr (xp ++ [vp])) = stripVal (GoVal.varr (xq ++ [vq])) := by
            show GoVal.varr (stripList (xp ++ [vp])) = GoVal.varr (stripList (xq ++ [vq]))
            rw [stripList_append, stripList_append, hlists]
            rw [show stripList [vp] = [stripVal vp] from rfl,
              show stripList [vq] = [stripVal vq] from rfl, hv]
          rw [this]
        · intro c hm
          rcases List.mem_cons.1 hm with hm | hm
          · exact Or.inr ⟨_, hm⟩
          · exact hrstp c hm
        · intro c hm
          rcases List.mem_cons.1 hm with hm | hm
          · exact Or.inr ⟨_, hm⟩
          · exact hrstq c hm

/-! ## Shape lemmas for single-run invariants -/

/-- Exhaustive description of the successful outcomes of `setValue`. -/
theorem setValue_shape (ped : Bool) (p : PState) (v : GoVal) (p2 : PState)
    (hp : setValue ped p v = .ok p2) :
    (∃ xs rest, p.ctxs = .varr xs :: rest ∧
      p2 = { p with ctxs := .varr (xs ++ [v]) :: rest }) ∨
    (∃ m k ks rest, p.ctxs = .vmap m :: rest ∧ p.keys = k :: ks ∧
      ((ped = false ∧
          p2 = { p with ctxs := .vmap (mapAssign m k v) :: rest, keys := ks }) ∨
       (ped = true ∧ ∃ it w u s ik iks, v = .vtok it w u s ∧ p.ikeys = ik :: iks ∧
          p2 = { p with
            ctxs := .vmap (mapAssign m k
              (.vtok { it with pos := ik.pos, line := ik.line } w u s)) :: rest,
            keys := ks, ikeys := iks }) ∨
       (ped = true ∧ p2 = { p with keys := ks }))) ∨
    p2 = p := by
  obtain ⟨ctxs, keys, ikeys, fz⟩ := p
  match ctxs, hp with
  | [], hp => exact Except.noConfusion hp
  | ctx :: rest, hp =>
    match ctx, hp with
    | .varr xs, hp =>
      rw [setValue] at hp
      dsimp only at hp
      exact Or.inl ⟨xs, rest, rfl, (Except.ok.inj hp).symm⟩
    | .vmap m, hp =>
      rw [setValue] at hp
      dsimp only at hp
      match keys, hp with
      | [], hp => exact Except.noConfusion hp
      | k :: ks, hp =>
        cases ped with
        | false =>
          exact Or.inr (Or.inl ⟨m, k, ks, rest, rfl, rfl,
            Or.inl ⟨rfl, (Except.ok.inj hp).symm⟩⟩)
        | true =>
          match v, hp with
          | .vtok it w u s, hp =>
            match ikeys, hp with
            | [], hp => exact Except.noConfusion hp
            | ik :: iks, hp =>
              exact Or.inr (Or.inl ⟨m, k, ks, rest, rfl, rfl,
                Or.inr (Or.inl ⟨rfl, it, w, u, s, ik, iks, rfl, rfl,
                  (Except.ok.inj hp).symm⟩)⟩)
          | .vstr s, hp =>
            exact Or.inr (Or.inl ⟨m, k, ks, rest, rfl, rfl,
              Or.inr (Or.inr ⟨rfl, (Except.ok.inj hp).symm⟩)⟩)
          | .vint n, hp =>
            exact Or.inr (Or.inl ⟨m, k, ks, rest, rfl, rfl,
              Or.inr (Or.inr ⟨rfl, (Except.ok.inj hp).symm⟩)⟩)
          | .vfloat r, hp =>
            exact Or.inr (Or.inl ⟨m, k, ks, rest, rfl, rfl,
              Or.inr (Or.inr ⟨rfl, (Except.ok.inj hp).symm⟩)⟩)
          | .vdate r, hp =>
            exact Or.inr (Or.inl ⟨m, k, ks, rest, rfl, rfl,
              Or.inr (Or.inr ⟨rfl, (Except.ok.inj hp).symm⟩)⟩)
          | .vbool b, hp =>
            exact Or.inr (Or.inl ⟨m, k, ks, rest, rfl, rfl,
              Or.inr (Or.inr ⟨rfl, (Except.ok.inj hp).symm⟩)⟩)
          | .varr xs, hp =>
            exact Or.inr (Or.inl ⟨m, k, ks, rest, rfl, rfl,
              Or.inr (Or.inr ⟨rfl, (Except.ok.inj hp).symm⟩)⟩)
          | .vmap mm, hp =>
            exact Or.inr (Or.inl ⟨m, k, ks, rest, rfl, rfl,
              Or.inr (Or.inr ⟨rfl, (Except.ok.inj hp).symm⟩)⟩)
    | .vstr s, hp => exact Or.inr (Or.inr (Except.ok.inj hp).symm)
    | .vint n, hp => exact Or.inr (Or.inr (Except.ok.inj hp).symm)
    | .vfloat r, hp => exact Or.inr (Or.inr (Except.ok.inj hp).symm)
    | .vdate r, hp => exact Or.inr (Or.inr (Except.ok.inj hp).symm)
    | .vbool b, hp => exact Or.inr (Or.inr (Except.ok.inj hp).symm)
    | .vtok it w u s, hp => exact Or.inr (Or.inr (Except.ok.inj hp).symm)

/-- Exhaustive description of the successful outcome of `popContext`. -/
theorem popContext_shape (p : PState) (c : GoVal) (p2 : PState)
    (hp : popContext p = .ok (c, p2)) :
    c ∈ p.ctxs ∧ (∀ x ∈ p2.ctxs, x ∈ p.ctxs) ∧
    (∀ x, p2.frozen = some x → p.frozen = some x ∨ x = c) ∧
    p2.keys = p.keys ∧ p2.ikeys = p.ikeys := by
  obtain ⟨ctxs, keys, ikeys, fz⟩ := p
  match ctxs, hp with
  | [], hp => exact Except.noConfusion hp
  | [_], hp => exact Except.noConfusion hp
  | c0 :: c2 :: rst, hp =>
    rw [popContext] at hp
    dsimp only at hp
    have hp1 := Except.ok.inj hp
    injection hp1 with hpc hpst
    subst hpc hpst
    refine ⟨List.mem_cons_self _ _, fun x hm => List.mem_cons_of_mem _ hm, ?_, rfl, rfl⟩
    intro x hfx
    dsimp only at hfx
    by_cases hcnd : rst.isEmpty && fz.isNone
    · rw [if_pos hcnd] at hfx
      exact Or.inr (Option.some.inj hfx).symm
    · rw [if_neg hcnd] at hfx
      exact Or.inl hfx

/-! ## Simulation of the variable resolver -/

theorem lookupVariable_sim (recParse : RecParse) (env : String → Option String)
    (cp cq : List GoVal) (name : String)
    (hs : stripList cp = stripList cq)
    (hcp : ∀ c ∈ cp, IsContainer c) (hcq : ∀ c ∈ cq, IsContainer c) :
    (∃ e, lookupVariable recParse env cp name = .error e ∧
      lookupVariable recParse env cq name = .error e) ∨
    (∃ op oq, lookupVariable recParse env cp name = .ok op ∧
      lookupVariable recParse env cq name = .ok oq ∧
      op.map stripVal = oq.map stripVal) := by
  unfold lookupVariable
  by_cases hb : bcryptMarker.data.isPrefixOf name.data = true
  · rw [if_pos hb, if_pos hb]
    exact Or.inr ⟨_, _, rfl, rfl, rfl⟩
  · rw [if_neg hb, if_neg hb]
    have halign := findInCtxs_strip cp name cq hs hcp hcq
    cases hfp : findInCtxs cp name with
    | some vp =>
      rw [hfp] at halign
      cases hfq : findInCtxs cq name with
      | none => rw [hfq] at halign; exact absurd halign (by simp)
      | some vq =>
        rw [hfq] at halign
        exact Or.inr ⟨some vp, some vq, rfl, rfl, halign⟩
    | none =>
      rw [hfp] at halign
      cases hfq : findInCtxs cq name with
      | some vq => rw [hfq] at halign; exact absurd halign.symm (by simp)
      | none =>
        cases henv : env name with
        | none => exact Or.inr ⟨none, none, rfl, rfl, rfl⟩
        | some vStr =>
          dsimp only
          cases hrp : recParse (pkey ++ "=" ++ vStr) "" false with
          | error e => exact Or.inl ⟨e, rfl, rfl⟩
          | ok vm => exact Or.inr ⟨_, _, rfl, rfl, rfl⟩

/-! ## Preservation of the per-mode stack invariants -/

theorem mapAssign_pairsTok (m : List (String × GoVal)) (k : String) (v : GoVal)
    (h : PairsTok m) (hv : ∃ it w u s, v = GoVal.vtok it w u s) :
    PairsTok (mapAssign m k v) := by
  induction m with
  | nil =>
    intro kv hm
    rw [mapAssign] at hm
    rcases List.mem_cons.1 hm with hm | hm
    · rw [hm]; exact hv
    · exact absurd hm (List.not_mem_nil kv)
  | cons kv0 rest ih =>
    obtain ⟨k2, v2⟩ := kv0
    have hrest : PairsTok rest := fun kv hm => h kv (List.mem_cons_of_mem _ hm)
    intro kv hm
    rw [mapAssign] at hm
    by_cases hk : k2 = k
    · rw [if_pos hk] at hm
      rcases List.mem_cons.1 hm with hm | hm
      · rw [hm]; exact hv
      · exact hrest kv hm
    · rw [if_neg hk] at hm
      rcases List.mem_cons.1 hm with hm | hm
      · exact h kv (by rw [hm]; exact List.mem_cons_self _ _)
      · exact ih hrest kv hm

theorem mapAssign_tokenFree (m : List (String × GoVal)) (k : String) (v : GoVal)
    (h : tokenFreePairs m = true) (hv : tokenFree v = true) :
    tokenFreePairs (mapAssign m k v) = true := by
  induction m with
  | nil => rw [mapAssign, tokenFreePairs, hv, tokenFreePairs]; rfl
  | cons kv0 rest ih =>
    obtain ⟨k2, v2⟩ := kv0
    rw [tokenFreePairs] at h
    have h2 := Bool.and_eq_true_iff.1 h
    by_cases hk : k2 = k
    · rw [mapAssign, if_pos hk, tokenFreePairs, hv, h2.2]; rfl
    · rw [mapAssign, if_neg hk, tokenFreePairs, h2.1, ih h2.2]; rfl

theorem tokenFreeList_append (xs ys : List GoVal)
    (hx : tokenFreeList xs = true) (hy : tokenFreeList ys = true) :
    tokenFreeList (xs ++ ys) = true := by
  induction xs with
  | nil => exact hy
  | cons v vs ih =>
    rw [tokenFreeList] at hx
    have h2 := Bool.and_eq_true_iff.1 hx
    rw [List.cons_append, tokenFreeList, h2.1, ih h2.2]; rfl

theorem tokenFreePairs_mem (m : List (String × GoVal)) (h : tokenFreePairs m = true) :
    ∀ kv ∈ m, tokenFree kv.2 = true := by
  induction m with
  | nil => intro kv hm; exact absurd hm (List.not_mem_nil kv)
  | cons kv0 rest ih =>
    obtain ⟨k2, v2⟩ := kv0
    have h2 := Bool.and_eq_true_iff.1 h
    intro kv hm
    rcases List.mem_cons.1 hm with hm | hm
    · rw [hm]; exact h2.1
    · exact ih h2.2 kv hm

theorem findInCtxs_tokenFree (ctxs : List GoVal) (k : String) (v : GoVal)
    (h : ∀ c ∈ ctxs, tokenFree c = true) (hf : findInCtxs ctxs k = some v) :
    tokenFree v = true := by
  induction ctxs with
  | nil => exact absurd hf (by rw [findInCtxs]; simp)
  | cons c rest ih =>
    have hrest : ∀ c ∈ rest, tokenFree c = true :=
      fun c hm => h c (List.mem_cons_of_mem _ hm)
    cases c with
    | vmap m =>
      rw [findInCtxs] at hf
      cases hl : mapLookup m k with
      | some w =>
        rw [hl] at hf
        rw [← Option.some.inj hf]
        exact tokenFree_mapLookup m k w (h _ (List.mem_cons_self _ _)) hl
      | none =>
        rw [hl] at hf
        exact ih hrest hf
    | vstr s => exact ih hrest hf
    | vint n => exact ih hrest hf
    | vfloat r => exact ih hrest hf
    | vdate r => exact ih hrest hf
    | vbool b => exact ih hrest hf
    | varr xs => exact ih hrest hf
    | vtok it w u s => exact ih hrest hf

/-- `setValue` in pedantic mode preserves the all-tokens property of map
contexts (its map branch only ever stores a token). -/
theorem setValue_stackTok (p : PState) (v : GoVal) (p2 : PState)
    (h : ∀ c ∈ p.ctxs, CtxTok c)
    (hp : setValue true p v = .ok p2) :
    (∀ c ∈ p2.ctxs, CtxTok c) ∧ p2.frozen = p.frozen := by
  rcases setValue_shape true p v p2 hp with
    ⟨xs, rest, hc, rfl⟩ | ⟨m, k, ks, rest, hc, hk, hcase⟩ | rfl
  · refine ⟨?_, rfl⟩
    intro c hm
    rcases List.mem_cons.1 hm with hm | hm
    · rw [hm]; trivial
    · exact h c (by rw [hc]; exact List.mem_cons_of_mem _ hm)
  · rcases hcase with ⟨hped, _⟩ | ⟨_, it, w, u, s, ik, iks, hv, hik, rfl⟩ | ⟨_, rfl⟩
    · exact absurd hped (by simp)
    · refine ⟨?_, rfl⟩
      intro c hm
      rcases List.mem_cons.1 hm with hm | hm
      · rw [hm]
        have hmtok : PairsTok m :=
          h (GoVal.vmap m) (by rw [hc]; exact List.mem_cons_self _ _)
        exact mapAssign_pairsTok m k _ hmtok ⟨_, _, _, _, rfl⟩
      · exact h c (by rw [hc]; exact List.mem_cons_of_mem _ hm)
    · exact ⟨h, rfl⟩
  · exact ⟨h, rfl⟩

/-- `setValue` in plain mode preserves token-freeness of the context stack
when the stored value is token-free. -/
theorem setValue_stackTF (p : PState) (v : GoVal) (p2 : PState)
    (h : ∀ c ∈ p.ctxs, tokenFree c = true) (hv : tokenFree v = true)
    (hp : setValue false p v = .ok p2) :
    (∀ c ∈ p2.ctxs, tokenFree c = true) ∧ p2.frozen = p.frozen := by
  rcases setValue_shape false p v p2 hp with
    ⟨xs, rest, hc, rfl⟩ | ⟨m, k, ks, rest, hc, hk, hcase⟩ | rfl
  · refine ⟨?_, rfl⟩
    intro c hm
    rcases List.mem_cons.1 hm with hm | hm
    · rw [hm]
      show tokenFreeList (xs ++ [v]) = true
      have hxs : tokenFree (GoVal.varr xs) = true := h _ (by rw [hc]; exact List.mem_cons_self _ _)
      exact tokenFreeList_append xs [v] hxs (by show tokenFree v && true = true; simp [hv])
    · exact h c (by rw [hc]; exact List.mem_cons_of_mem _ hm)
  · rcases hcase with ⟨_, rfl⟩ | ⟨hped, _⟩ | ⟨hped, _⟩
    · refine ⟨?_, rfl⟩
      intro c hm
      rcases List.mem_cons.1 hm with hm | hm
      · rw [hm]
        show tokenFreePairs (mapAssign m k v) = true
        have hmtf : tokenFree (GoVal.vmap m) = true :=
          h _ (by rw [hc]; exact List.mem_cons_self _ _)
        exact mapAssign_tokenFree m k v hmtf hv
      · exact h c (by rw [hc]; exact List.mem_cons_of_mem _ hm)
    · exact absurd hped (by simp)
    · exact absurd hped (by simp)
  · exact ⟨h, rfl⟩

theorem pushSpliceKey_fields (ped : Bool) (p : PState) (k : String) (v : GoVal) :
    (pushSpliceKey ped p k v).ctxs = p.ctxs ∧
    (pushSpliceKey ped p k v).frozen = p.frozen ∧
    (pushSpliceKey ped p k v).keys = k :: p.keys := by
  cases ped <;> cases v <;> exact ⟨rfl, rfl, rfl⟩

/-- The include splice preserves the pedantic all-tokens invariant. -/
theorem splice_stackTok : ∀ (m : RootMap) (p p2 : PState),
    (∀ c ∈ p.ctxs, CtxTok c) →
    splice true p m = .ok p2 →
    (∀ c ∈ p2.ctxs, CtxTok c) ∧ p2.frozen = p.frozen
  | [], p, p2, h, hp => by
    rw [splice] at hp
    rw [← Except.ok.inj hp]
    exact ⟨h, rfl⟩
  | (k, v) :: rest, p, p2, h, hp => by
    rw [splice] at hp
    obtain ⟨hc, hf, _⟩ := pushSpliceKey_fields true p k v
    cases hsv : setValue true (pushSpliceKey true p k v) v with
    | error e => rw [hsv] at hp; exact Except.noConfusion hp
    | ok p3 =>
      rw [hsv] at hp
      have hp3 : splice true p3 rest = .ok p2 := hp
      have hmid : ∀ c ∈ (pushSpliceKey true p k v).ctxs, CtxTok c := by rw [hc]; exact h
      obtain ⟨h3, hf3⟩ := setValue_stackTok _ v p3 hmid hsv
      obtain ⟨h4, hf4⟩ := splice_stackTok rest p3 p2 h3 hp3
      exact ⟨h4, by rw [hf4, hf3, hf]⟩

/-- The include splice in plain mode preserves token-freeness when all
spliced values are token-free. -/
theorem splice_stackTF : ∀ (m : RootMap) (p p2 : PState),
    (∀ c ∈ p.ctxs, tokenFree c = true) →
    (∀ kv ∈ m, tokenFree kv.2 = true) →
    splice false p m = .ok p2 →
    (∀ c ∈ p2.ctxs, tokenFree c = true) ∧ p2.frozen = p.frozen
  | [], p, p2, h, _, hp => by
    rw [splice] at hp
    rw [← Except.ok.inj hp]
    exact ⟨h, rfl⟩
  | (k, v) :: rest, p, p2, h, hm, hp => by
    rw [splice] at hp
    obtain ⟨hc, hf, _⟩ := pushSpliceKey_fields false p k v
    cases hsv : setValue false (pushSpliceKey false p k v) v with
    | error e => rw [hsv] at hp; exact Except.noConfusion hp
    | ok p3 =>
      rw [hsv] at hp
      have hp3 : splice false p3 rest = .ok p2 := hp
      have hmid : ∀ c ∈ (pushSpliceKey false p k v).ctxs, tokenFree c = true := by
        rw [hc]; exact h
      obtain ⟨h3, hf3⟩ := setValue_stackTF _ v p3 hmid
        (hm (k, v) (List.mem_cons_self _ _)) hsv
      obtain ⟨h4, hf4⟩ := splice_stackTF rest p3 p2 h3
        (fun kv hkv => hm kv (List.mem_cons_of_mem _ hkv)) hp3
      exact ⟨h4, by rw [hf4, hf3, hf]⟩

/-- The include splice preserves the plain/pedantic simulation when the
two spliced documents agree up to stripping and the pedantic one is
all-tokens. -/
theorem splice_sim : ∀ (mp : RootMap) (mq : RootMap) (pp pq pp2 pq2 : PState),
    SimState pp pq →
    (∀ c ∈ pp.ctxs, IsContainer c) → (∀ c ∈ pq.ctxs, IsContainer c) →
    stripPairs mp = stripPairs mq → PairsTok mq →
    splice false pp mp = .ok pp2 → splice true pq mq = .ok pq2 →
    SimState pp2 pq2 ∧
    (∀ c ∈ pp2.ctxs, IsContainer c) ∧ (∀ c ∈ pq2.ctxs, IsContainer c) ∧
    pp2.frozen = pp.frozen ∧ pq2.frozen = pq.frozen
  | [], mq, pp, pq, pp2, pq2, hsim, hokp, hokq, hstrip, _, hp, hq => by
    have hmq : mq = [] := by
      cases mq with
      | nil => rfl
      | cons kv rest =>
        obtain ⟨k, v⟩ := kv
        exact absurd hstrip.symm (by rw [stripPairs, stripPairs]; simp)
    subst hmq
    rw [splice] at hp hq
    rw [← Except.ok.inj hp, ← Except.ok.inj hq]
    exact ⟨hsim, hokp, hokq, rfl, rfl⟩
  | (k, v) :: restp, mq, pp, pq, pp2, pq2, hsim, hokp, hokq, hstrip, htok, hp, hq => by
    match mq, hstrip, htok, hq with
    | [], hstrip, _, _ => exact absurd hstrip (by rw [stripPairs, stripPairs]; simp)
    | (k2, v2) :: restq, hstrip, htok, hq =>
      rw [stripPairs, stripPairs] at hstrip
      have hk2 : k = k2 := (Prod.mk.injEq .. ▸ (List.cons.injEq .. ▸ hstrip).1).1
      have hv2 : stripVal v = stripVal v2 := (Prod.mk.injEq .. ▸ (List.cons.injEq .. ▸ hstrip).1).2
      have hrest : stripPairs restp = stripPairs restq := (List.cons.injEq .. ▸ hstrip).2
      obtain ⟨it2, w2, u2, s2, hvt⟩ := htok (k2, v2) (List.mem_cons_self _ _)
      dsimp only at hvt
      subst hvt hk2
      rw [splice] at hp hq
      cases hsvp : setValue false (pushSpliceKey false pp k v) v with
      | error e => rw [hsvp] at hp; exact Except.noConfusion hp
      | ok pp3 =>
        cases hsvq : setValue true (pushSpliceKey true pq k (GoVal.vtok it2 w2 u2 s2))
            (GoVal.vtok it2 w2 u2 s2) with
        | error e => rw [hsvq] at hq; exact Except.noConfusion hq
        | ok pq3 =>
          rw [hsvp] at hp
          rw [hsvq] at hq
          have hp3 : splice false pp3 restp = .ok pp2 := hp
          have hq3 : splice true pq3 restq = .ok pq2 := hq
          have hsimmid : SimState (pushSpliceKey false pp k v)
              (pushSpliceKey true pq k (GoVal.vtok it2 w2 u2 s2)) := by
            obtain ⟨hs, hkk, hf⟩ := hsim
            exact ⟨hs, by show k :: pp.keys = k :: pq.keys; rw [hkk], hf⟩
          obtain ⟨hsim3, hok3p, hok3q, hf3p, hf3q⟩ :=
            setValue_sim _ _ v (GoVal.vtok it2 w2 u2 s2) pp3 pq3 hsimmid
              hokp hokq ⟨_, _, _, _, rfl⟩ hv2 hsvp hsvq
          obtain ⟨hsim4, hok4p, hok4q, hf4p, hf4q⟩ :=
            splice_sim restp restq pp3 pq3 pp2 pq2 hsim3 hok3p hok3q hrest
              (fun kv hkv => htok kv (List.mem_cons_of_mem _ hkv)) hp3 hq3
          refine ⟨hsim4, hok4p, hok4q, ?_, ?_⟩
          · rw [hf4p, hf3p]
            exact (pushSpliceKey_fields false pp k v).2.1
          · rw [hf4q, hf3q]
            exact (pushSpliceKey_fields true pq k (GoVal.vtok it2 w2 u2 s2)).2.1

/-! ## Simulation of one parser step -/

theorem storeVariable_ped_eq (fp : String) (p : PState) (it : Item) (value : GoVal) :
    (∃ it2 inner u2 s2, value = GoVal.vtok it2 inner u2 s2 ∧
      storeVariable true fp p it value =
        setValue true { p with ctxs := markUsed p.ctxs it.val }
          (.vtok it inner false fp)) ∨
    storeVariable true fp p it value = setValue true p (.vtok it value false fp) := by
  cases value with
  | vtok it2 inner u2 s2 => exact Or.inl ⟨it2, inner, u2, s2, rfl, rfl⟩
  | vstr s => exact Or.inr rfl
  | vint n => exact Or.inr rfl
  | vfloat r => exact Or.inr rfl
  | vdate r => exact Or.inr rfl
  | vbool b => exact Or.inr rfl
  | varr xs => exact Or.inr rfl
  | vmap m => exact Or.inr rfl

theorem storeVariable_sim (fp : String) (pp pq pp2 pq2 : PState) (it : Item)
    (vp0 vq0 : GoVal)
    (hsim : SimState pp pq)
    (hokp : ∀ c ∈ pp.ctxs, IsContainer c) (hokq : ∀ c ∈ pq.ctxs, IsContainer c)
    (hv0 : stripVal vp0 = stripVal vq0)
    (hp : storeVariable false fp pp it vp0 = .ok pp2)
    (hq : storeVariable true fp pq it vq0 = .ok pq2) :
    SimState pp2 pq2 ∧
    (∀ c ∈ pp2.ctxs, IsContainer c) ∧ (∀ c ∈ pq2.ctxs, IsContainer c) ∧
    pp2.frozen = pp.frozen ∧ pq2.frozen = pq.frozen := by
  have hp2 : setValue false pp vp0 = .ok pp2 := hp
  rcases storeVariable_ped_eq fp pq it vq0 with ⟨it2, inner, u2, s2, rfl, heq⟩ | heq
  · rw [heq] at hq
    have hsimmid : SimState pp { pq with ctxs := markUsed pq.ctxs it.val } := by
      refine ⟨?_, hsim.2.1, hsim.2.2⟩
      dsimp only
      rw [stripList_markUsed]
      exact hsim.1
    have hokmid : ∀ c ∈ ({ pq with ctxs := markUsed pq.ctxs it.val } : PState).ctxs,
        IsContainer c := markUsed_isContainer pq.ctxs it.val hokq
    exact setValue_sim pp { pq with ctxs := markUsed pq.ctxs it.val } vp0
      (.vtok it inner false fp) pp2 pq2 hsimmid hokp hokmid
      ⟨_, _, _, _, rfl⟩ hv0 hp2 hq
  · rw [heq] at hq
    exact setValue_sim pp pq vp0 (.vtok it vq0 false fp) pp2 pq2 hsim hokp hokq
      ⟨_, _, _, _, rfl⟩ hv0 hp2 hq

theorem processItem_sim (recParse : RecParse) (env : String → Option String)
    (fs : String → Option String) (fp : String) (pp pq pp2 pq2 : PState) (it : Item)
    (hrecsim : ∀ d f mp mq, recParse d f false = .ok mp → recParse d f true = .ok mq →
      stripPairs mp = stripPairs mq)
    (hrectok : ∀ d f mq, recParse d f true = .ok mq → PairsTok mq)
    (hsim : SimState pp pq)
    (hokp : ∀ c ∈ pp.ctxs, IsContainer c) (hokq : ∀ c ∈ pq.ctxs, IsContainer c)
    (hfzp : ∀ c, pp.frozen = some c → IsContainer c)
    (hfzq : ∀ c, pq.frozen = some c → IsContainer c)
    (hp : processItem recParse env fs fp false pp it = .ok pp2)
    (hq : processItem recParse env fs fp true pq it = .ok pq2) :
    SimState pp2 pq2 ∧
    (∀ c ∈ pp2.ctxs, IsContainer c) ∧ (∀ c ∈ pq2.ctxs, IsContainer c) ∧
    (∀ c, pp2.frozen = some c → IsContainer c) ∧
    (∀ c, pq2.frozen = some c → IsContainer c) := by
  obtain ⟨hs, hk, hf⟩ := hsim
  obtain ⟨typ, val, line, pos⟩ := it
  cases typ
  case itemError =>
    rw [processItem] at hp
    exact Except.noConfusion hp
  case itemKey =>
    rw [processItem] at hp hq
    dsimp only at hp hq
    rw [← Except.ok.inj hp, ← Except.ok.inj hq]
    exact ⟨⟨hs, by dsimp only; rw [hk], hf⟩, hokp, hokq, hfzp, hfzq⟩
  case itemMapStart =>
    rw [processItem] at hp hq
    dsimp only at hp hq
    rw [← Except.ok.inj hp, ← Except.ok.inj hq]
    refine ⟨⟨?_, hk, hf⟩, ?_, ?_, hfzp, hfzq⟩
    · show stripVal (GoVal.vmap []) :: stripList pp.ctxs =
        stripVal (GoVal.vmap []) :: stripList pq.ctxs
      rw [hs]
    · intro c hm
      rcases List.mem_cons.1 hm with hm | hm
      · exact Or.inl ⟨[], hm⟩
      · exact hokp c hm
    · intro c hm
      rcases List.mem_cons.1 hm with hm | hm
      · exact Or.inl ⟨[], hm⟩
      · exact hokq c hm
  case itemArrayStart =>
    rw [processItem] at hp hq
    dsimp only at hp hq
    rw [← Except.ok.inj hp, ← Except.ok.inj hq]
    refine ⟨⟨?_, hk, hf⟩, ?_, ?_, hfzp, hfzq⟩
    · show stripVal (GoVal.varr []) :: stripList pp.ctxs =
        stripVal (GoVal.varr []) :: stripList pq.ctxs
      rw [hs]
    · intro c hm
      rcases List.mem_cons.1 hm with hm | hm
      · exact Or.inr ⟨[], hm⟩
      · exact hokp c hm
    · intro c hm
      rcases List.mem_cons.1 hm with hm | hm
      · exact Or.inr ⟨[], hm⟩
      · exact hokq c hm
  case itemMapEnd =>
    rw [processItem] at hp hq
    dsimp only at hp hq
    cases hpopp : popContext pp with
    | error e => rw [hpopp] at hp; exact Except.noConfusion hp
    | ok cp1 =>
      obtain ⟨cp, pp1⟩ := cp1
      cases hpopq : popContext pq with
      | error e => rw [hpopq] at hq; exact Except.noConfusion hq
      | ok cq1 =>
        obtain ⟨cq, pq1⟩ := cq1
        rw [hpopp] at hp
        rw [hpopq] at hq
        have hp2 : setValue false pp1 cp = .ok pp2 := hp
        have hq2 : setValue true pq1
            (.vtok ⟨.itemMapEnd, val, line, pos⟩ cq false fp) = .ok pq2 := hq
        obtain ⟨hstripc, hsim1, hcpmem, hcqmem, hsubp, hsubq, hfr1p, hfr1q, _, _⟩ :=
          popContext_sim pp pq cp cq pp1 pq1 ⟨hs, hk, hf⟩ hpopp hpopq
        have hok1p : ∀ c ∈ pp1.ctxs, IsContainer c := fun c hm => hokp c (hsubp c hm)
        have hok1q : ∀ c ∈ pq1.ctxs, IsContainer c := fun c hm => hokq c (hsubq c hm)
        obtain ⟨hsim2, hok2p, hok2q, hf2p, hf2q⟩ :=
          setValue_sim pp1 pq1 cp _ pp2 pq2 hsim1 hok1p hok1q ⟨_, _, _, _, rfl⟩
            hstripc hp2 hq2
        refine ⟨hsim2, hok2p, hok2q, ?_, ?_⟩
        · intro c hc
          rw [hf2p] at hc
          rcases hfr1p c hc with hold | rfl
          · exact hfzp c hold
          · exact hokp c hcpmem
        · intro c hc
          rw [hf2q] at hc
          rcases hfr1q c hc with hold | rfl
          · exact hfzq c hold
          · exact hokq c hcqmem
  case itemArrayEnd =>
    rw [processItem] at hp hq
    dsimp only at hp hq
    cases hpopp : popContext pp with
    | error e => rw [hpopp] at hp; exact Except.noConfusion hp
    | ok cp1 =>
      obtain ⟨cp, pp1⟩ := cp1
      cases hpopq : popContext pq with
      | error e => rw [hpopq] at hq; exact Except.noConfusion hq
      | ok cq1 =>
        obtain ⟨cq, pq1⟩ := cq1
        rw [hpopp] at hp
        rw [hpopq] at hq
        have hp2 : setValue false pp1 cp = .ok pp2 := hp
        have hq2 : setValue true pq1
            (.vtok ⟨.itemArrayEnd, val, line, pos⟩ cq false fp) = .ok pq2 := hq
        obtain ⟨hstripc, hsim1, hcpmem, hcqmem, hsubp, hsubq, hfr1p, hfr1q, _, _⟩ :=
          popContext_sim pp pq cp cq pp1 pq1 ⟨hs, hk, hf⟩ hpopp hpopq
        have hok1p : ∀ c ∈ pp1.ctxs, IsContainer c := fun c hm => hokp c (hsubp c hm)
        have hok1q : ∀ c ∈ pq1.ctxs, IsContainer c := fun c hm => hokq c (hsubq c hm)
        obtain ⟨hsim2, hok2p, hok2q, hf2p, hf2q⟩ :=
          setValue_sim pp1 pq1 cp _ pp2 pq2 hsim1 hok1p hok1q ⟨_, _, _, _, rfl⟩
            hstripc hp2 hq2
        refine ⟨hsim2, hok2p, hok2q, ?_, ?_⟩
        · intro c hc
          rw [hf2p] at hc
          rcases hfr1p c hc with hold | rfl
          · exact hfzp c hold
          · exact hokp c hcpmem
        · intro c hc
          rw [hf2q] at hc
          rcases hfr1q c hc with hold | rfl
          · exact hfzq c hold
          · exact hokq c hcqmem
  case itemString =>
    rw [processItem] at hp hq
    dsimp only at hp hq
    have hp2 : setValue false pp (.vstr val) = .ok pp2 := hp
    have hq2 : setValue true pq
        (.vtok ⟨.itemString, val, line, pos⟩ (.vstr val) false fp) = .ok pq2 := hq
    obtain ⟨hsim2, hok2p, hok2q, hf2p, hf2q⟩ :=
      setValue_sim pp pq (.vstr val)
        (.vtok ⟨.itemString, val, line, pos⟩ (.vstr val) false fp) pp2 pq2
        ⟨hs, hk, hf⟩ hokp hokq ⟨_, _, _, _, rfl⟩ rfl hp2 hq2
    exact ⟨hsim2, hok2p, hok2q,
      fun c hc => hfzp c (by rw [← hf2p]; exact hc),
      fun c hc => hfzq c (by rw [← hf2q]; exact hc)⟩
  case itemInteger =>
    rw [processItem] at hp hq
    dsimp only at hp hq
    cases hdec : parseInteger val with
    | none => rw [hdec] at hp; exact Except.noConfusion hp
    | some n =>
      rw [hdec] at hp hq
      have hp2 : setValue false pp (.vint n) = .ok pp2 := hp
      have hq2 : setValue true pq
          (.vtok ⟨.itemInteger, val, line, pos⟩ (.vint n) false fp) = .ok pq2 := hq
      obtain ⟨hsim2, hok2p, hok2q, hf2p, hf2q⟩ :=
        setValue_sim pp pq (.vint n)
          (.vtok ⟨.itemInteger, val, line, pos⟩ (.vint n) false fp) pp2 pq2
          ⟨hs, hk, hf⟩ hokp hokq ⟨_, _, _, _, rfl⟩ rfl hp2 hq2
      exact ⟨hsim2, hok2p, hok2q,
        fun c hc => hfzp c (by rw [← hf2p]; exact hc),
        fun c hc => hfzq c (by rw [← hf2q]; exact hc)⟩
  case itemFloat =>
    rw [processItem] at hp hq
    dsimp only at hp hq
    by_cases hdec : goFloatSyntaxOk val = true
    · rw [if_pos hdec] at hp hq
      have hp2 : setValue false pp (.vfloat val) = .ok pp2 := hp
      have hq2 : setValue true pq
          (.vtok ⟨.itemFloat, val, line, pos⟩ (.vfloat val) false fp) = .ok pq2 := hq
      obtain ⟨hsim2, hok2p, hok2q, hf2p, hf2q⟩ :=
        setValue_sim pp pq (.vfloat val)
          (.vtok ⟨.itemFloat, val, line, pos⟩ (.vfloat val) false fp) pp2 pq2
          ⟨hs, hk, hf⟩ hokp hokq ⟨_, _, _, _, rfl⟩ rfl hp2 hq2
      exact ⟨hsim2, hok2p, hok2q,
        fun c hc => hfzp c (by rw [← hf2p]; exact hc),
        fun c hc => hfzq c (by rw [← hf2q]; exact hc)⟩
    · rw [if_neg hdec] at hp
      exact Except.noConfusion hp
  case itemBool =>
    rw [processItem] at hp hq
    dsimp only at hp hq
    have hp2 : setValue false pp (.vbool (parseBool val)) = .ok pp2 := hp
    have hq2 : setValue true pq
        (.vtok ⟨.itemBool, val, line, pos⟩ (.vbool (parseBool val)) false fp) = .ok pq2 := hq
    obtain ⟨hsim2, hok2p, hok2q, hf2p, hf2q⟩ :=
      setValue_sim pp pq (.vbool (parseBool val))
        (.vtok ⟨.itemBool, val, line, pos⟩ (.vbool (parseBool val)) false fp) pp2 pq2
        ⟨hs, hk, hf⟩ hokp hokq ⟨_, _, _, _, rfl⟩ rfl hp2 hq2
    exact ⟨hsim2, hok2p, hok2q,
      fun c hc => hfzp c (by rw [← hf2p]; exact hc),
      fun c hc => hfzq c (by rw [← hf2q]; exact hc)⟩
  case itemDatetime =>
    rw [processItem] at hp hq
    dsimp only at hp hq
    by_cases hdec : goDateTimeOk val = true
    · rw [if_pos hdec] at hp hq
      have hp2 : setValue false pp (.vdate val) = .ok pp2 := hp
      have hq2 : setValue true pq
          (.vtok ⟨.itemDatetime, val, line, pos⟩ (.vdate val) false fp) = .ok pq2 := hq
      obtain ⟨hsim2, hok2p, hok2q, hf2p, hf2q⟩ :=
        setValue_sim pp pq (.vdate val)
          (.vtok ⟨.itemDatetime, val, line, pos⟩ (.vdate val) false fp) pp2 pq2
          ⟨hs, hk, hf⟩ hokp hokq ⟨_, _, _, _, rfl⟩ rfl hp2 hq2
      exact ⟨hsim2, hok2p, hok2q,
        fun c hc => hfzp c (by rw [← hf2p]; exact hc),
        fun c hc => hfzq c (by rw [← hf2q]; exact hc)⟩
    · rw [if_neg hdec] at hp
      exact Except.noConfusion hp
  case itemVariable =>
    rw [processItem] at hp hq
    dsimp only at hp hq
    rcases lookupVariable_sim recParse env pp.ctxs pq.ctxs val hs hokp hokq with
      ⟨e, hep, heq⟩ | ⟨op, oq, hop, hoq, halign⟩
    · rw [hep] at hp
      cases e with
      | perr msg => exact Except.noConfusion hp
      | pcrash msg => exact Except.noConfusion hp
      | pfuel => exact Except.noConfusion hp
    · rw [hop] at hp
      rw [hoq] at hq
      cases op with
      | none =>
        exact Except.noConfusion hp
      | some vp0 =>
        cases oq with
        | none => exact absurd halign (by simp)
        | some vq0 =>
          have hv0 : stripVal vp0 = stripVal vq0 := by
            have := halign
            simp only [Option.map] at this
            exact Option.some.inj this
          have hp2 : storeVariable false fp pp
              ⟨.itemVariable, val, line, pos⟩ vp0 = .ok pp2 := hp
          have hq2 : storeVariable true fp pq
              ⟨.itemVariable, val, line, pos⟩ vq0 = .ok pq2 := hq
          obtain ⟨hsim2, hok2p, hok2q, hf2p, hf2q⟩ :=
            storeVariable_sim fp pp pq pp2 pq2 ⟨.itemVariable, val, line, pos⟩ vp0 vq0
              ⟨hs, hk, hf⟩ hokp hokq hv0 hp2 hq2
          exact ⟨hsim2, hok2p, hok2q,
            fun c hc => hfzp c (by rw [← hf2p]; exact hc),
            fun c hc => hfzq c (by rw [← hf2q]; exact hc)⟩
  case itemInclude =>
    rw [processItem] at hp hq
    dsimp only at hp hq
    cases hinc : parseIncludeFile recParse fs (goDir fp) val false with
    | error e =>
      rw [hinc] at hp
      cases e with
      | perr msg => exact Except.noConfusion hp
      | pcrash msg => exact Except.noConfusion hp
      | pfuel => exact Except.noConfusion hp
    | ok mp1 =>
      rw [hinc] at hp
      have hp2 : splice false pp mp1 = .ok pp2 := hp
      cases hinq : parseIncludeFile recParse fs (goDir fp) val true with
      | error e =>
        rw [hinq] at hq
        cases e with
        | perr msg => exact Except.noConfusion hq
        | pcrash msg => exact Except.noConfusion hq
        | pfuel => exact Except.noConfusion hq
      | ok mq1 =>
        rw [hinq] at hq
        have hq2 : splice true pq mq1 = .ok pq2 := hq
        have hinc2 : goParseFilePlain recParse fs (goJoin (goDir fp) val) = .ok mp1 := hinc
        have hinq2 : goParseFileChecks recParse fs (goJoin (goDir fp) val) = .ok mq1 := hinq
        rw [goParseFilePlain] at hinc2
        rw [goParseFileChecks] at hinq2
        cases hfs : fs (goJoin (goDir fp) val) with
        | none =>
          rw [hfs] at hinc2
          exact Except.noConfusion hinc2
        | some data =>
          rw [hfs] at hinc2 hinq2
          have hrpp : recParse data (goJoin (goDir fp) val) false = .ok mp1 := hinc2
          have hrpq : recParse data (goJoin (goDir fp) val) true = .ok mq1 := hinq2
          obtain ⟨hsim2, hok2p, hok2q, hf2p, hf2q⟩ :=
            splice_sim mp1 mq1 pp pq pp2 pq2 ⟨hs, hk, hf⟩ hokp hokq
              (hrecsim data (goJoin (goDir fp) val) mp1 mq1 hrpp hrpq)
              (hrectok data (goJoin (goDir fp) val) mq1 hrpq) hp2 hq2
          exact ⟨hsim2, hok2p, hok2q,
            fun c hc => hfzp c (by rw [← hf2p]; exact hc),
            fun c hc => hfzq c (by rw [← hf2q]; exact hc)⟩
  case itemEOF =>
    rw [processItem] at hp hq
    rw [← Except.ok.inj hp, ← Except.ok.inj hq]
    exact ⟨⟨hs, hk, hf⟩, hokp, hokq, hfzp, hfzq⟩

/-! ## Alignment of the final result extraction -/

theorem resultMapping_sim (pp pq : PState) (mp mq : RootMap)
    (hsim : SimState pp pq)
    (hokp : ∀ c ∈ pp.ctxs, IsContainer c) (hokq : ∀ c ∈ pq.ctxs, IsContainer c)
    (hfzp : ∀ c, pp.frozen = some c → IsContainer c)
    (hfzq : ∀ c, pq.frozen = some c → IsContainer c)
    (hp : resultMapping pp = .ok mp) (hq : resultMapping pq = .ok mq) :
    stripPairs mp = stripPairs mq := by
  obtain ⟨hs, hk, hf⟩ := hsim
  rw [resultMapping] at hp hq
  cases hfp : pp.frozen with
  | some cp =>
    rw [hfp] at hp
    cases hfq : pq.frozen with
    | none => rw [hfp, hfq] at hf; exact absurd hf (by simp)
    | some cq =>
      rw [hfq] at hq
      rw [hfp, hfq] at hf
      have hcc : stripVal cp = stripVal cq := by
        simp only [Option.map] at hf
        exact Option.some.inj hf
      rcases container_strip_eq cp cq (hfzp cp hfp) (hfzq cq hfq) hcc with
        ⟨mp2, mq2, rfl, rfl, hpairs⟩ | ⟨xp, xq, rfl, rfl, _⟩
      · rw [← Except.ok.inj hp, ← Except.ok.inj hq]
        exact hpairs
      · exact Except.noConfusion hp
  | none =>
    rw [hfp] at hp
    cases hfq : pq.frozen with
    | some cq => rw [hfp, hfq] at hf; exact absurd hf (by simp)
    | none =>
      rw [hfq] at hq
      have hrev : stripList pp.ctxs.reverse = stripList pq.ctxs.reverse := by
        rw [stripList_eq_map, stripList_eq_map] at hs ⊢
        rw [List.map_reverse, List.map_reverse, hs]
      cases hrp : pp.ctxs.reverse with
      | nil =>
        rw [hrp] at hp
        exact Except.noConfusion hp
      | cons a tail =>
        cases hrq : pq.ctxs.reverse with
        | nil =>
          rw [hrp, hrq] at hrev
          exact absurd hrev (by rw [stripList, stripList]; simp)
        | cons a2 tail2 =>
          rw [hrp, hrq] at hrev
          rw [stripList, stripList] at hrev
          have htl : stripList tail = stripList tail2 := (List.cons.injEq .. ▸ hrev).2
          cases tail with
          | nil =>
            rw [hrp] at hp
            exact Except.noConfusion hp
          | cons b tail3 =>
            cases tail2 with
            | nil =>
              rw [stripList, stripList] at htl
              exact absurd htl (by simp)
            | cons b2 tail4 =>
              rw [stripList, stripList] at htl
              have hbb : stripVal b = stripVal b2 := (List.cons.injEq .. ▸ htl).1
              have hbmem : b ∈ pp.ctxs := by
                rw [← List.mem_reverse, hrp]
                exact List.mem_cons_of_mem _ (List.mem_cons_self _ _)
              have hbmem2 : b2 ∈ pq.ctxs := by
                rw [← List.mem_reverse, hrq]
                exact List.mem_cons_of_mem _ (List.mem_cons_self _ _)
              rw [hrp] at hp
              rw [hrq] at hq
              rcases container_strip_eq b b2 (hokp b hbmem) (hokq b2 hbmem2) hbb with
                ⟨mb, mb2, rfl, rfl, hpairs⟩ | ⟨xb, xb2, rfl, rfl, _⟩
              · rw [← Except.ok.inj hp, ← Except.ok.inj hq]
                exact hpairs
              · exact Except.noConfusion hp

/-- The pedantic result extraction yields an all-tokens map. -/
theorem resultMapping_tok (p : PState) (m : RootMap)
    (hc : ∀ c ∈ p.ctxs, CtxTok c) (hz : ∀ c, p.frozen = some c → CtxTok c)
    (hp : resultMapping p = .ok m) : PairsTok m := by
  rw [resultMapping] at hp
  cases hfp : p.frozen with
  | some cp =>
    rw [hfp] at hp
    cases cp with
    | vmap mm =>
      rw [← Except.ok.inj hp]
      exact hz (GoVal.vmap mm) hfp
    | vstr s => exact Except.noConfusion hp
    | vint n => exact Except.noConfusion hp
    | vfloat r => exact Except.noConfusion hp
    | vdate r => exact Except.noConfusion hp
    | vbool b => exact Except.noConfusion hp
    | varr xs => exact Except.noConfusion hp
    | vtok it w u s => exact Except.noConfusion hp
  | none =>
    rw [hfp] at hp
    cases hrp : p.ctxs.reverse with
    | nil => rw [hrp] at hp; exact Except.noConfusion hp
    | cons a tail =>
      cases tail with
      | nil => rw [hrp] at hp; exact Except.noConfusion hp
      | cons b tail3 =>
        rw [hrp] at hp
        have hbmem : b ∈ p.ctxs := by
          rw [← List.mem_reverse, hrp]
          exact List.mem_cons_of_mem _ (List.mem_cons_self _ _)
        cases b with
        | vmap mm =>
          rw [← Except.ok.inj hp]
          exact hc (GoVal.vmap mm) hbmem
        | vstr s => exact Except.noConfusion hp
        | vint n => exact Except.noConfusion hp
        | vfloat r => exact Except.noConfusion hp
        | vdate r => exact Except.noConfusion hp
        | vbool b2 => exact Except.noConfusion hp
        | varr xs => exact Except.noConfusion hp
        | vtok it w u s => exact Except.noConfusion hp

/-- The plain result extraction yields a token-free map. -/
theorem resultMapping_tf (p : PState) (m : RootMap)
    (hc : ∀ c ∈ p.ctxs, tokenFree c = true)
    (hz : ∀ c, p.frozen = some c → tokenFree c = true)
    (hp : resultMapping p = .ok m) : tokenFreePairs m = true := by
  rw [resultMapping] at hp
  cases hfp : p.frozen with
  | some cp =>
    rw [hfp] at hp
    cases cp with
    | vmap mm =>
      rw [← Except.ok.inj hp]
      exact hz (GoVal.vmap mm) hfp
    | vstr s => exact Except.noConfusion hp
    | vint n => exact Except.noConfusion hp
    | vfloat r => exact Except.noConfusion hp
    | vdate r => exact Except.noConfusion hp
    | vbool b => exact Except.noConfusion hp
    | varr xs => exact Except.noConfusion hp
    | vtok it w u s => exact Except.noConfusion hp
  | none =>
    rw [hfp] at hp
    cases hrp : p.ctxs.reverse with
    | nil => rw [hrp] at hp; exact Except.noConfusion hp
    | cons a tail =>
      cases tail with
      | nil => rw [hrp] at hp; exact Except.noConfusion hp
      | cons b tail3 =>
        rw [hrp] at hp
        have hbmem : b ∈ p.ctxs := by
          rw [← List.mem_reverse, hrp]
          exact List.mem_cons_of_mem _ (List.mem_cons_self _ _)
        cases b with
        | vmap mm =>
          rw [← Except.ok.inj hp]
          exact hc (GoVal.vmap mm) hbmem
        | vstr s => exact Except.noConfusion hp
        | vint n => exact Except.noConfusion hp
        | vfloat r => exact Except.noConfusion hp
        | vdate r => exact Except.noConfusion hp
        | vbool b2 => exact Except.noConfusion hp
        | varr xs => exact Except.noConfusion hp
        | vtok it w u s => exact Except.noConfusion hp

/-! ## The token loop preserves the simulation -/

theorem runItems_sim (recParse : RecParse) (env : String → Option String)
    (fs : String → Option String) (fp : String)
    (hrecsim : ∀ d f mp mq, recParse d f false = .ok mp → recParse d f true = .ok mq →
      stripPairs mp = stripPairs mq)
    (hrectok : ∀ d f mq, recParse d f true = .ok mq → PairsTok mq) :
    ∀ (items : List Item) (pp pq : PState) (prev : Item) (mp mq : RootMap),
    SimState pp pq →
    (∀ c ∈ pp.ctxs, IsContainer c) → (∀ c ∈ pq.ctxs, IsContainer c) →
    (∀ c, pp.frozen = some c → IsContainer c) →
    (∀ c, pq.frozen = some c → IsContainer c) →
    runItems recParse env fs fp false pp prev items = .ok mp →
    runItems recParse env fs fp true pq prev items = .ok mq →
    stripPairs mp = stripPairs mq := by
  intro items
  induction items with
  | nil =>
    intro pp pq prev mp mq _ _ _ _ _ hp _
    rw [runItems] at hp
    exact Except.noConfusion hp
  | cons it rest ih =>
    intro pp pq prev mp mq hsim hokp hokq hfzp hfzq hp hq
    rw [runItems] at hp hq
    by_cases hcond : it.typ = .itemEOF ∧ prev.typ = .itemKey ∧ prev.val ≠ mapEndString
    · rw [if_pos hcond] at hp
      exact Except.noConfusion hp
    · rw [if_neg hcond] at hp hq
      cases hpi : processItem recParse env fs fp false pp it with
      | error e => rw [hpi] at hp; exact Except.noConfusion hp
      | ok pp1 =>
        cases hqi : processItem recParse env fs fp true pq it with
        | error e => rw [hqi] at hq; exact Except.noConfusion hq
        | ok pq1 =>
          rw [hpi] at hp
          rw [hqi] at hq
          obtain ⟨hsim1, hok1p, hok1q, hfz1p, hfz1q⟩ :=
            processItem_sim recParse env fs fp pp pq pp1 pq1 it hrecsim hrectok
              hsim hokp hokq hfzp hfzq hpi hqi
          by_cases heof : it.typ = .itemEOF
          · have hp2 : (if it.typ = .itemEOF then resultMapping pp1
                else runItems recParse env fs fp false pp1 it rest) = .ok mp := hp
            have hq2 : (if it.typ = .itemEOF then resultMapping pq1
                else runItems recParse env fs fp true pq1 it rest) = .ok mq := hq
            rw [if_pos heof] at hp2 hq2
            exact resultMapping_sim pp1 pq1 mp mq hsim1 hok1p hok1q hfz1p hfz1q hp2 hq2
          · have hp2 : (if it.typ = .itemEOF then resultMapping pp1
                else runItems recParse env fs fp false pp1 it rest) = .ok mp := hp
            have hq2 : (if it.typ = .itemEOF then resultMapping pq1
                else runItems recParse env fs fp true pq1 it rest) = .ok mq := hq
            rw [if_neg heof] at hp2 hq2
            exact ih pp1 pq1 it mp mq hsim1 hok1p hok1q hfz1p hfz1q hp2 hq2

/-! ## Pedantic runs store only tokens in map contexts -/

theorem processItem_stackTok (recParse : RecParse) (env : String → Option String)
    (fs : String → Option String) (fp : String) (p p2 : PState) (it : Item)
    (hc : ∀ c ∈ p.ctxs, CtxTok c) (hz : ∀ c, p.frozen = some c → CtxTok c)
    (hp : processItem recParse env fs fp true p it = .ok p2) :
    (∀ c ∈ p2.ctxs, CtxTok c) ∧ (∀ c, p2.frozen = some c → CtxTok c) := by
  obtain ⟨typ, val, line, pos⟩ := it
  cases typ
  case itemError =>
    rw [processItem] at hp
    exact Except.noConfusion hp
  case itemKey =>
    rw [processItem] at hp
    dsimp only at hp
    rw [← Except.ok.inj hp]
    exact ⟨hc, hz⟩
  case itemMapStart =>
    rw [processItem] at hp
    dsimp only at hp
    rw [← Except.ok.inj hp]
    refine ⟨?_, hz⟩
    intro c hm
    rcases List.mem_cons.1 hm with hm | hm
    · rw [hm]
      exact fun kv hkv => absurd hkv (List.not_mem_nil kv)
    · exact hc c hm
  case itemArrayStart =>
    rw [processItem] at hp
    dsimp only at hp
    rw [← Except.ok.inj hp]
    refine ⟨?_, hz⟩
    intro c hm
    rcases List.mem_cons.1 hm with hm | hm
    · rw [hm]; trivial
    · exact hc c hm
  case itemMapEnd =>
    rw [processItem] at hp
    dsimp only at hp
    cases hpop : popContext p with
    | error e => rw [hpop] at hp; exact Except.noConfusion hp
    | ok cp1 =>
      obtain ⟨c, p1⟩ := cp1
      rw [hpop] at hp
      have hp2 : setValue true p1 (.vtok ⟨.itemMapEnd, val, line, pos⟩ c false fp) = .ok p2 := hp
      obtain ⟨hcm, hsub, hfr, _, _⟩ := popContext_shape p c p1 hpop
      have hc1 : ∀ x ∈ p1.ctxs, CtxTok x := fun x hm => hc x (hsub x hm)
      have hz1 : ∀ x, p1.frozen = some x → CtxTok x := by
        intro x hx
        rcases hfr x hx with hold | rfl
        · exact hz x hold
        · exact hc x hcm
      obtain ⟨hc2, hfz2⟩ := setValue_stackTok p1 _ p2 hc1 hp2
      exact ⟨hc2, fun x hx => hz1 x (by rw [← hfz2]; exact hx)⟩
  case itemArrayEnd =>
    rw [processItem] at hp
    dsimp only at hp
    cases hpop : popContext p with
    | error e => rw [hpop] at hp; exact Except.noConfusion hp
    | ok cp1 =>
      obtain ⟨c, p1⟩ := cp1
      rw [hpop] at hp
      have hp2 : setValue true p1 (.vtok ⟨.itemArrayEnd, val, line, pos⟩ c false fp) = .ok p2 := hp
      obtain ⟨hcm, hsub, hfr, _, _⟩ := popContext_shape p c p1 hpop
      have hc1 : ∀ x ∈ p1.ctxs, CtxTok x := fun x hm => hc x (hsub x hm)
      have hz1 : ∀ x, p1.frozen = some x → CtxTok x := by
        intro x hx
        rcases hfr x hx with hold | rfl
        · exact hz x hold
        · exact hc x hcm
      obtain ⟨hc2, hfz2⟩ := setValue_stackTok p1 _ p2 hc1 hp2
      exact ⟨hc2, fun x hx => hz1 x (by rw [← hfz2]; exact hx)⟩
  case itemString =>
    rw [processItem] at hp
    dsimp only at hp
    have hp2 : setValue true p
        (.vtok ⟨.itemString, val, line, pos⟩ (.vstr val) false fp) = .ok p2 := hp
    obtain ⟨hc2, hfz2⟩ := setValue_stackTok p _ p2 hc hp2
    exact ⟨hc2, fun x hx => hz x (by rw [← hfz2]; exact hx)⟩
  case itemInteger =>
    rw [processItem] at hp
    dsimp only at hp
    cases hdec : parseInteger val with
    | none => rw [hdec] at hp; exact Except.noConfusion hp
    | some n =>
      rw [hdec] at hp
      have hp2 : setValue true p
          (.vtok ⟨.itemInteger, val, line, pos⟩ (.vint n) false fp) = .ok p2 := hp
      obtain ⟨hc2, hfz2⟩ := setValue_stackTok p _ p2 hc hp2
      exact ⟨hc2, fun x hx => hz x (by rw [← hfz2]; exact hx)⟩
  case itemFloat =>
    rw [processItem] at hp
    dsimp only at hp
    by_cases hdec : goFloatSyntaxOk val = true
    · rw [if_pos hdec] at hp
      have hp2 : setValue true p
          (.vtok ⟨.itemFloat, val, line, pos⟩ (.vfloat val) false fp) = .ok p2 := hp
      obtain ⟨hc2, hfz2⟩ := setValue_stackTok p _ p2 hc hp2
      exact ⟨hc2, fun x hx => hz x (by rw [← hfz2]; exact hx)⟩
    · rw [if_neg hdec] at hp
      exact Except.noConfusion hp
  case itemBool =>
    rw [processItem] at hp
    dsimp only at hp
    have hp2 : setValue true p
        (.vtok ⟨.itemBool, val, line, pos⟩ (.vbool (parseBool val)) false fp) = .ok p2 := hp
    obtain ⟨hc2, hfz2⟩ := setValue_stackTok p _ p2 hc hp2
    exact ⟨hc2, fun x hx => hz x (by rw [← hfz2]; exact hx)⟩
  case itemDatetime =>
    rw [processItem] at hp
    dsimp only at hp
    by_cases hdec : goDateTimeOk val = true
    · rw [if_pos hdec] at hp
      have hp2 : setValue true p
          (.vtok ⟨.itemDatetime, val, line, pos⟩ (.vdate val) false fp) = .ok p2 := hp
      obtain ⟨hc2, hfz2⟩ := setValue_stackTok p _ p2 hc hp2
      exact ⟨hc2, fun x hx => hz x (by rw [← hfz2]; exact hx)⟩
    · rw [if_neg hdec] at hp
      exact Except.noConfusion hp
  case itemVariable =>
    rw [processItem] at hp
    dsimp only at hp
    cases hlv : lookupVariable recParse env p.ctxs val with
    | error e =>
      rw [hlv] at hp
      cases e with
      | perr msg => exact Except.noConfusion hp
      | pcrash msg => exact Except.noConfusion hp
      | pfuel => exact Except.noConfusion hp
    | ok o =>
      rw [hlv] at hp
      cases o with
      | none => exact Except.noConfusion hp
      | some value =>
        have hp2 : storeVariable true fp p ⟨.itemVariable, val, line, pos⟩ value = .ok p2 := hp
        rcases storeVariable_ped_eq fp p ⟨.itemVariable, val, line, pos⟩ value with
          ⟨it2, inner, u2, s2, hveq, heq⟩ | heq
        · rw [heq] at hp2
          obtain ⟨hc2, hfz2⟩ := setValue_stackTok _ _ p2
            (markUsed_ctxTok p.ctxs _ hc) hp2
          exact ⟨hc2, fun x hx => hz x (by rw [← hfz2]; exact hx)⟩
        · rw [heq] at hp2
          obtain ⟨hc2, hfz2⟩ := setValue_stackTok p _ p2 hc hp2
          exact ⟨hc2, fun x hx => hz x (by rw [← hfz2]; exact hx)⟩
  case itemInclude =>
    rw [processItem] at hp
    dsimp only at hp
    cases hinc : parseIncludeFile recParse fs (goDir fp) val true with
    | error e =>
      rw [hinc] at hp
      cases e with
      | perr msg => exact Except.noConfusion hp
      | pcrash msg => exact Except.noConfusion hp
      | pfuel => exact Except.noConfusion hp
    | ok m1 =>
      rw [hinc] at hp
      have hp2 : splice true p m1 = .ok p2 := hp
      obtain ⟨hc2, hfz2⟩ := splice_stackTok m1 p p2 hc hp2
      exact ⟨hc2, fun x hx => hz x (by rw [← hfz2]; exact hx)⟩
  case itemEOF =>
    rw [processItem] at hp
    rw [← Except.ok.inj hp]
    exact ⟨hc, hz⟩

theorem runItems_pedTok (recParse : RecParse) (env : String → Option String)
    (fs : String → Option String) (fp : String) :
    ∀ (items : List Item) (p : PState) (prev : Item) (m : RootMap),
    (∀ c ∈ p.ctxs, CtxTok c) → (∀ c, p.frozen = some c → CtxTok c) →
    runItems recParse env fs fp true p prev items = .ok m → PairsTok m := by
  intro items
  induction items with
  | nil =>
    intro p prev m _ _ hp
    rw [runItems] at hp
    exact Except.noConfusion hp
  | cons it rest ih =>
    intro p prev m hc hz hp
    rw [runItems] at hp
    by_cases hcond : it.typ = .itemEOF ∧ prev.typ = .itemKey ∧ prev.val ≠ mapEndString
    · rw [if_pos hcond] at hp
      exact Except.noConfusion hp
    · rw [if_neg hcond] at hp
      cases hpi : processItem recParse env fs fp true p it with
      | error e => rw [hpi] at hp; exact Except.noConfusion hp
      | ok p1 =>
        rw [hpi] at hp
        obtain ⟨hc1, hz1⟩ :=
          processItem_stackTok recParse env fs fp p p1 it hc hz hpi
        by_cases heof : it.typ = .itemEOF
        · have hp2 : (if it.typ = .itemEOF then resultMapping p1
              else runItems recParse env fs fp true p1 it rest) = .ok m := hp
          rw [if_pos heof] at hp2
          exact resultMapping_tok p1 m hc1 hz1 hp2
        · have hp2 : (if it.typ = .itemEOF then resultMapping p1
              else runItems recParse env fs fp true p1 it rest) = .ok m := hp
          rw [if_neg heof] at hp2
          exact ih p1 it m hc1 hz1 hp2

/-- Every pedantic parse result binds only tokens at its top level. -/
theorem parseDataFuel_pedTok (fuel : Nat) (w : World) (d f : String) (m : RootMap)
    (hp : parseDataFuel fuel w d f true = .ok m) : PairsTok m := by
  cases fuel with
  | zero => exact Except.noConfusion hp
  | succ n =>
    rw [parseDataFuel] at hp
    refine runItems_pedTok _ _ _ _ (w.lex d) initState zeroItem m ?_ ?_ hp
    · intro c hm
      have hcc : c = GoVal.vmap [] := by
        rcases List.mem_cons.1 hm with h | hm2
        · exact h
        · rcases List.mem_cons.1 hm2 with h | h3
          · exact h
          · exact absurd h3 (List.not_mem_nil c)
      rw [hcc]
      exact fun kv hkv => absurd hkv (List.not_mem_nil kv)
    · intro c hx
      exact Option.noConfusion hx

/-! ## Plain runs never produce token wrappers -/

theorem lookupVariable_tf (recParse : RecParse) (env : String → Option String)
    (ctxs : List GoVal) (r : String) (v : GoVal)
    (hrectf : ∀ d f m, recParse d f false = .ok m → tokenFreePairs m = true)
    (hc : ∀ c ∈ ctxs, tokenFree c = true)
    (hl : lookupVariable recParse env ctxs r = .ok (some v)) :
    tokenFree v = true := by
  rw [lookupVariable] at hl
  by_cases hb : bcryptMarker.data.isPrefixOf r.data = true
  · rw [if_pos hb] at hl
    rw [← Option.some.inj (Except.ok.inj hl)]
    rfl
  · rw [if_neg hb] at hl
    cases hf : findInCtxs ctxs r with
    | some w =>
      rw [hf] at hl
      rw [← Option.some.inj (Except.ok.inj hl)]
      exact findInCtxs_tokenFree ctxs r w hc hf
    | none =>
      rw [hf] at hl
      cases he : env r with
      | some vStr =>
        rw [he] at hl
        dsimp only at hl
        cases hrp : recParse (pkey ++ "=" ++ vStr) "" false with
        | error e => rw [hrp] at hl; exact Except.noConfusion hl
        | ok vm =>
          rw [hrp] at hl
          exact tokenFree_mapLookup vm pkey v (hrectf _ _ _ hrp) (Except.ok.inj hl)
      | none =>
        rw [he] at hl
        exact Option.noConfusion (Except.ok.inj hl)

theorem processItem_stackTF (recParse : RecParse) (env : String → Option String)
    (fs : String → Option String) (fp : String) (p p2 : PState) (it : Item)
    (hrectf : ∀ d f m, recParse d f false = .ok m → tokenFreePairs m = true)
    (hc : ∀ c ∈ p.ctxs, tokenFree c = true)
    (hz : ∀ c, p.frozen = some c → tokenFree c = true)
    (hp : processItem recParse env fs fp false p it = .ok p2) :
    (∀ c ∈ p2.ctxs, tokenFree c = true) ∧
    (∀ c, p2.frozen = some c → tokenFree c = true) := by
  obtain ⟨typ, val, line, pos⟩ := it
  cases typ
  case itemError =>
    rw [processItem] at hp
    exact Except.noConfusion hp
  case itemKey =>
    rw [processItem] at hp
    rw [← Except.ok.inj hp]
    exact ⟨hc, hz⟩
  case itemMapStart =>
    rw [processItem] at hp
    dsimp only at hp
    rw [← Except.ok.inj hp]
    refine ⟨?_, hz⟩
    intro c hm
    rcases List.mem_cons.1 hm with hm | hm
    · rw [hm]; rfl
    · exact hc c hm
  case itemArrayStart =>
    rw [processItem] at hp
    dsimp only at hp
    rw [← Except.ok.inj hp]
    refine ⟨?_, hz⟩
    intro c hm
    rcases List.mem_cons.1 hm with hm | hm
    · rw [hm]; rfl
    · exact hc c hm
  case itemMapEnd =>
    rw [processItem] at hp
    dsimp only at hp
    cases hpop : popContext p with
    | error e => rw [hpop] at hp; exact Except.noConfusion hp
    | ok cp1 =>
      obtain ⟨c, p1⟩ := cp1
      rw [hpop] at hp
      have hp2 : setValue false p1 c = .ok p2 := hp
      obtain ⟨hcm, hsub, hfr, _, _⟩ := popContext_shape p c p1 hpop
      have hc1 : ∀ x ∈ p1.ctxs, tokenFree x = true := fun x hm => hc x (hsub x hm)
      have hz1 : ∀ x, p1.frozen = some x → tokenFree x = true := by
        intro x hx
        rcases hfr x hx with hold | rfl
        · exact hz x hold
        · exact hc x hcm
      obtain ⟨hc2, hfz2⟩ := setValue_stackTF p1 c p2 hc1 (hc c hcm) hp2
      exact ⟨hc2, fun x hx => hz1 x (by rw [← hfz2]; exact hx)⟩
  case itemArrayEnd =>
    rw [processItem] at hp
    dsimp only at hp
    cases hpop : popContext p with
    | error e => rw [hpop] at hp; exact Except.noConfusion hp
    | ok cp1 =>
      obtain ⟨c, p1⟩ := cp1
      rw [hpop] at hp
      have hp2 : setValue false p1 c = .ok p2 := hp
      obtain ⟨hcm, hsub, hfr, _, _⟩ := popContext_shape p c p1 hpop
      have hc1 : ∀ x ∈ p1.ctxs, tokenFree x = true := fun x hm => hc x (hsub x hm)
      have hz1 : ∀ x, p1.frozen = some x → tokenFree x = true := by
        intro x hx
        rcases hfr x hx with hold | rfl
        · exact hz x hold
        · exact hc x hcm
      obtain ⟨hc2, hfz2⟩ := setValue_stackTF p1 c p2 hc1 (hc c hcm) hp2
      exact ⟨hc2, fun x hx => hz1 x (by rw [← hfz2]; exact hx)⟩
  case itemString =>
    rw [processItem] at hp
    have hp2 : setValue false p (.vstr val) = .ok p2 := hp
    obtain ⟨hc2, hfz2⟩ := setValue_stackTF p (.vstr val) p2 hc rfl hp2
    exact ⟨hc2, fun x hx => hz x (by rw [← hfz2]; exact hx)⟩
  case itemInteger =>
    rw [processItem] at hp
    dsimp only at hp
    cases hdec : parseInteger val with
    | none => rw [hdec] at hp; exact Except.noConfusion hp
    | some n =>
      rw [hdec] at hp
      have hp2 : setValue false p (.vint n) = .ok p2 := hp
      obtain ⟨hc2, hfz2⟩ := setValue_stackTF p (.vint n) p2 hc rfl hp2
      exact ⟨hc2, fun x hx => hz x (by rw [← hfz2]; exact hx)⟩
  case itemFloat =>
    rw [processItem] at hp
    dsimp only at hp
    by_cases hdec : goFloatSyntaxOk val = true
    · rw [if_pos hdec] at hp
      have hp2 : setValue false p (.vfloat val) = .ok p2 := hp
      obtain ⟨hc2, hfz2⟩ := setValue_stackTF p (.vfloat val) p2 hc rfl hp2
      exact ⟨hc2, fun x hx => hz x (by rw [← hfz2]; exact hx)⟩
    · rw [if_neg hdec] at hp
      exact Except.noConfusion hp
  case itemBool =>
    rw [processItem] at hp
    have hp2 : setValue false p (.vbool (parseBool val)) = .ok p2 := hp
    obtain ⟨hc2, hfz2⟩ := setValue_stackTF p (.vbool (parseBool val)) p2 hc rfl hp2
    exact ⟨hc2, fun x hx => hz x (by rw [← hfz2]; exact hx)⟩
  case itemDatetime =>
    rw [processItem] at hp
    dsimp only at hp
    by_cases hdec : goDateTimeOk val = true
    · rw [if_pos hdec] at hp
      have hp2 : setValue false p (.vdate val) = .ok p2 := hp
      obtain ⟨hc2, hfz2⟩ := setValue_stackTF p (.vdate val) p2 hc rfl hp2
      exact ⟨hc2, fun x hx => hz x (by rw [← hfz2]; exact hx)⟩
    · rw [if_neg hdec] at hp
      exact Except.noConfusion hp
  case itemVariable =>
    rw [processItem] at hp
    dsimp only at hp
    cases hlv : lookupVariable recParse env p.ctxs val with
    | error e =>
      rw [hlv] at hp
      cases e with
      | perr msg => exact Except.noConfusion hp
      | pcrash msg => exact Except.noConfusion hp
      | pfuel => exact Except.noConfusion hp
    | ok o =>
      rw [hlv] at hp
      cases o with
      | none => exact Except.noConfusion hp
      | some value =>
        have hp2 : setValue false p value = .ok p2 := hp
        have hvtf : tokenFree value = true :=
          lookupVariable_tf recParse env p.ctxs val value hrectf hc hlv
        obtain ⟨hc2, hfz2⟩ := setValue_stackTF p value p2 hc hvtf hp2
        exact ⟨hc2, fun x hx => hz x (by rw [← hfz2]; exact hx)⟩
  case itemInclude =>
    rw [processItem] at hp
    dsimp only at hp
    cases hinc : parseIncludeFile recParse fs (goDir fp) val false with
    | error e =>
      rw [hinc] at hp
      cases e with
      | perr msg => exact Except.noConfusion hp
      | pcrash msg => exact Except.noConfusion hp
      | pfuel => exact Except.noConfusion hp
    | ok m1 =>
      rw [hinc] at hp
      have hp2 : splice false p m1 = .ok p2 := hp
      have htf : tokenFreePairs m1 = true := by
        have hinc2 : goParseFilePlain recParse fs (goJoin (goDir fp) val) = .ok m1 := hinc
        rw [goParseFilePlain] at hinc2
        cases hfs : fs (goJoin (goDir fp) val) with
        | none => rw [hfs] at hinc2; exact Except.noConfusion hinc2
        | some data =>
          rw [hfs] at hinc2
          exact hrectf _ _ _ hinc2
      obtain ⟨hc2, hfz2⟩ := splice_stackTF m1 p p2 hc (tokenFreePairs_mem m1 htf) hp2
      exact ⟨hc2, fun x hx => hz x (by rw [← hfz2]; exact hx)⟩
  case itemEOF =>
    rw [processItem] at hp
    rw [← Except.ok.inj hp]
    exact ⟨hc, hz⟩

theorem runItems_tf (recParse : RecParse) (env : String → Option String)
    (fs : String → Option String) (fp : String)
    (hrectf : ∀ d f m, recParse d f false = .ok m → tokenFreePairs m = true) :
    ∀ (items : List Item) (p : PState) (prev : Item) (m : RootMap),
    (∀ c ∈ p.ctxs, tokenFree c = true) →
    (∀ c, p.frozen = some c → tokenFree c = true) →
    runItems recParse env fs fp false p prev items = .ok m →
    tokenFreePairs m = true := by
  intro items
  induction items with
  | nil =>
    intro p prev m _ _ hp
    rw [runItems] at hp
    exact Except.noConfusion hp
  | cons it rest ih =>
    intro p prev m hc hz hp
    rw [runItems] at hp
    by_cases hcond : it.typ = .itemEOF ∧ prev.typ = .itemKey ∧ prev.val ≠ mapEndString
    · rw [if_pos hcond] at hp
      exact Except.noConfusion hp
    · rw [if_neg hcond] at hp
      cases hpi : processItem recParse env fs fp false p it with
      | error e => rw [hpi] at hp; exact Except.noConfusion hp
      | ok p1 =>
        rw [hpi] at hp
        obtain ⟨hc1, hz1⟩ :=
          processItem_stackTF recParse env fs fp p p1 it hrectf hc hz hpi
        by_cases heof : it.typ = .itemEOF
        · have hp2 : (if it.typ = .itemEOF then resultMapping p1
              else runItems recParse env fs fp false p1 it rest) = .ok m := hp
          rw [if_pos heof] at hp2
          exact resultMapping_tf p1 m hc1 hz1 hp2
        · have hp2 : (if it.typ = .itemEOF then resultMapping p1
              else runItems recParse env fs fp false p1 it rest) = .ok m := hp
          rw [if_neg heof] at hp2
          exact ih p1 it m hc1 hz1 hp2

/-- Every plain parse result is free of token wrappers, at any depth. -/
theorem parseDataFuel_tf : ∀ (fuel : Nat) (w : World) (d f : String) (m : RootMap),
    parseDataFuel fuel w d f false = .ok m → tokenFreePairs m = true := by
  intro fuel
  induction fuel with
  | zero =>
    intro w d f m hp
    exact Except.noConfusion hp
  | succ n ih =>
    intro w d f m hp
    rw [parseDataFuel] at hp
    refine runItems_tf _ _ _ _ (fun d2 f2 m2 hr => ih w d2 f2 m2 hr)
      (w.lex d) initState zeroItem m ?_ ?_ hp
    · intro c hm
      have hcc : c = GoVal.vmap [] := by
        rcases List.mem_cons.1 hm with h | hm2
        · exact h
        · rcases List.mem_cons.1 hm2 with h | h3
          · exact h
          · exact absurd h3 (List.not_mem_nil c)
      rw [hcc]
      rfl
    · intro c hx
      exact Option.noConfusion hx

/-! ## The plain/pedantic simulation, tied through the fuel -/

theorem parseDataFuel_sim : ∀ (fuel : Nat) (w : World) (d f : String) (mp mq : RootMap),
    parseDataFuel fuel w d f false = .ok mp →
    parseDataFuel fuel w d f true = .ok mq →
    stripPairs mp = stripPairs mq := by
  intro fuel
  induction fuel with
  | zero =>
    intro w d f mp mq hp _
    exact Except.noConfusion hp
  | succ n ih =>
    intro w d f mp mq hp hq
    rw [parseDataFuel] at hp hq
    have hinitc : ∀ c ∈ initState.ctxs, IsContainer c := by
      intro c hm
      have hcc : c = GoVal.vmap [] := by
        rcases List.mem_cons.1 hm with h | hm2
        · exact h
        · rcases List.mem_cons.1 hm2 with h | h3
          · exact h
          · exact absurd h3 (List.not_mem_nil c)
      exact Or.inl ⟨[], hcc⟩
    refine runItems_sim _ _ _ _
      (fun d2 f2 mp2 mq2 hrp hrq => ih w d2 f2 mp2 mq2 hrp hrq)
      (fun d2 f2 mq2 hrq => parseDataFuel_pedTok n w d2 f2 mq2 hrq)
      (w.lex d) initState initState zeroItem mp mq
      ⟨rfl, rfl, rfl⟩ hinitc hinitc ?_ ?_ hp hq
    · intro c hx
      exact Option.noConfusion hx
    · intro c hx
      exact Option.noConfusion hx

/-- C1: for every input that parses successfully in both modes (any lexer
world, any nesting fuel, for `parseData` at any file path and for the
`Parse` / `ParseWithChecks` entry points), replacing every pedantic token
wrapper in the pedantic result by its wrapped value yields exactly the
plain result: the two value trees are structurally identical after
stripping. -/
theorem parse_strip_equivalence (fuel : Nat) (w : World) (data fp : String)
    (mp mq : RootMap) :
    (parseDataFuel fuel w data fp false = .ok mp →
      parseDataFuel fuel w data fp true = .ok mq →
      stripPairs mq = mp) ∧
    (goParse fuel w data = .ok mp →
      goParseWithChecks fuel w data = .ok mq →
      stripPairs mq = mp) := by
  constructor
  · intro hp hq
    have hsim := parseDataFuel_sim fuel w data fp mp mq hp hq
    have htf := parseDataFuel_tf fuel w data fp mp hp
    rw [← hsim, stripPairs_of_tokenFree mp htf]
  · intro hp hq
    have hsim := parseDataFuel_sim fuel w data "" mp mq hp hq
    have htf := parseDataFuel_tf fuel w data "" mp hp
    rw [← hsim, stripPairs_of_tokenFree mp htf]

theorem parse_strip_equivalence_witness :
    stripPairs [("a", GoVal.vtok ⟨.itemString, "b", 1, 1⟩ (.vstr "b") false "")] =
      [("a", GoVal.vstr "b")] :=
  (parse_strip_equivalence 1
    (itemsWorld [⟨.itemKey, "a", 1, 1⟩, ⟨.itemString, "b", 1, 1⟩, ⟨.itemEOF, "", 1, 1⟩])
    "" ""
    [("a", GoVal.vstr "b")]
    [("a", GoVal.vtok ⟨.itemString, "b", 1, 1⟩ (.vstr "b") false "")]).2
    (by rfl) (by rfl)

end Conf
